import Mathlib

/-
Shallow embedding of src/server/text_generation_server/layers/mlp.py
(MLP speculator for speculative decoding) and proofs about it.

Modelling conventions:
* Machine floats are modelled as an arbitrary linearly ordered field.
  The transcendental operations the source delegates to torch / math
  (exp, log, sqrt, rsqrt, the GELU activation, float exponentiation)
  are collected in a `ScalarOps` record; numeric theorems instantiate
  them with the corresponding real functions.
* Tensors are nested lists: a (b, d) tensor is a `List (List _)` of b
  rows, a (k, b, d) tensor is a `List (List (List _))`, row-major,
  matching the memory layout that torch `view` / `reshape` reinterpret.
* torch modules loaded from named weights (FastLinear,
  TensorParallelEmbedding, the layer norm) are records carrying the
  name they were loaded from, so that sharing ("weight tying") of
  parameter objects is observable as equality of the records.
* The only failure paths modelled with `Except` are the ones the
  claims are about: the forward-time assert on the top-k list length,
  the broadcast failure when assigning `all_probs[:, i]`, and the
  TypeError raised when `MLPSpeculatorLayerNorm` is constructed with
  its required `config` / `weights` arguments missing.  Shape
  mismatches in other tensor operations are modelled totally
  (zipWith truncates); the theorems carry well-formedness hypotheses
  where those shapes matter.
-/

namespace TGI

/-- Collection of the scalar operations that the source delegates to
torch / `math`: elementwise exponential, natural logarithm, square
root, reciprocal square root, float exponentiation (`x ** y`) and the
GELU activation. -/
structure ScalarOps (α : Type) where
  exp : α → α
  log : α → α
  sqrt : α → α
  rsqrt : α → α
  rpow : α → α → α
  gelu : α → α

variable {α : Type} {γ : Type} {δ : Type}

/-- Dot product of two rows (truncating on length mismatch, which the
theorems exclude by hypotheses where it matters). -/
def dotProd [LinearOrderedField α] (xs ys : List α) : α :=
  (List.zipWith (fun a b => a * b) xs ys).sum

/-- Application of a bias-free linear layer with weight matrix `w` of
shape (out, in) to a single vector: torch computes `x @ w.T`. -/
def matvec [LinearOrderedField α] (w : List (List α)) (x : List α) : List α :=
  w.map (fun row => dotProd row x)

/-- Bias-free linear layer applied to a (b, in) tensor. -/
def linear2 [LinearOrderedField α] (w : List (List α)) (x : List (List α)) : List (List α) :=
  x.map (matvec w)

/-- Bias-free linear layer applied to a (k, b, in) tensor. -/
def linear3 [LinearOrderedField α] (w : List (List α)) (x : List (List (List α))) :
    List (List (List α)) :=
  x.map (linear2 w)

/-- Elementwise map over a (k, b, d) tensor. -/
def map3 (f : α → γ) (x : List (List (List α))) : List (List (List γ)) :=
  x.map (fun sl => sl.map (fun row => row.map f))

/-- Elementwise addition of two (k, b, d) tensors of equal shape. -/
def add3 [LinearOrderedField α] (x y : List (List (List α))) : List (List (List α)) :=
  List.zipWith (fun p q => List.zipWith (fun r s => List.zipWith (fun a b => a + b) r s) p q) x y

/-- Embedding lookup: `table` has one row per vocabulary id; applied to
a (k, b) integer tensor it gathers rows, giving a (k, b, edim) tensor.
Out-of-range ids (excluded by hypotheses where relevant) give `[]`. -/
def embedLookup (table : List (List α)) (ids : List (List ℕ)) : List (List (List α)) :=
  ids.map (fun row => row.map (fun i => table.getD i []))

/-- Regrouping of a flat row-major list into rows of length `b`; this
is the semantics of torch `view (-1, b)` / `reshape (-1, b, d)` on the
(already flattened) leading axes. -/
def chunks : ℕ → List γ → List (List γ)
  | _, [] => []
  | 0, _ :: _ => []
  | b + 1, x :: xs => (x :: xs).take (b + 1) :: chunks (b + 1) (xs.drop b)
termination_by _ l => l.length
decreasing_by
  simp only [List.length_cons, List.length_drop]
  omega

/-- Parameters of `MLPSpeculatorLayerNorm`: the name it was loaded
from, the learned elementwise scale and shift (present only when
`elementwise_scale_and_shift` is set), and the epsilon guard. -/
structure MLPSpeculatorLayerNorm (α : Type) where
  ln_key : String × ℕ
  weight : List α
  bias : List α
  eps : α
  elementwise_scale_and_shift : Bool
deriving DecidableEq

/-- Default (empty) layer norm record used for out-of-range list
access (never reached in the theorems, which stay in bounds). -/
def emptyLN [LinearOrderedField α] : MLPSpeculatorLayerNorm α :=
  ⟨("", 0), [], [], 0, false⟩

/-- Forward pass of `MLPSpeculatorLayerNorm` on one vector (the last
tensor axis): `xf = x * rsqrt(mean(x^2, last axis) + eps)`, then, when
`elementwise_scale_and_shift` is set, `x = weight * xf; x = x + bias`.
The `type_as` cast of the source is the identity here since a single
scalar type is in play. -/
def MLPSpeculatorLayerNorm.forward1 [LinearOrderedField α] (ops : ScalarOps α)
    (p : MLPSpeculatorLayerNorm α) (x : List α) : List α :=
  let m := ((x.map (fun a => a ^ 2)).sum) / (x.length : α)
  let xf := x.map (fun a => a * ops.rsqrt (m + p.eps))
  if p.elementwise_scale_and_shift then
    List.zipWith (fun a b => a + b) (List.zipWith (fun w a => w * a) p.weight xf) p.bias
  else xf

/-- Layer norm forward on a (b, d) tensor (normalization acts on the
last axis, elementwise in the leading ones). -/
def lnForward2 [LinearOrderedField α] (ops : ScalarOps α) (p : MLPSpeculatorLayerNorm α)
    (x : List (List α)) : List (List α) :=
  x.map (p.forward1 ops)

/-- Layer norm forward on a (k, b, d) tensor. -/
def lnForward3 [LinearOrderedField α] (ops : ScalarOps α) (p : MLPSpeculatorLayerNorm α)
    (x : List (List (List α))) : List (List (List α)) :=
  x.map (lnForward2 ops p)

/-- Ranking relation used to model `torch.topk` on the last axis:
index `i` ranks before `j` when its value is larger, ties broken by
index order.  torch leaves tie order implementation-defined; this
fixes the deterministic stable order (first maximal index first),
which also matches `torch.argmax` returning the first maximal index. -/
def rankR [LinearOrderedField α] (v : List α) (i j : ℕ) : Prop :=
  v.getD j 0 < v.getD i 0 ∨ (v.getD i 0 = v.getD j 0 ∧ i ≤ j)

instance [LinearOrderedField α] (v : List α) : DecidableRel (rankR v) := fun i j => by
  unfold rankR; infer_instance

instance [LinearOrderedField α] (v : List α) : IsTotal ℕ (rankR v) := by
  constructor
  intro i j
  rcases lt_trichotomy (v.getD i 0) (v.getD j 0) with h | h | h
  · exact Or.inr (Or.inl h)
  · rcases Nat.le_total i j with hij | hij
    · exact Or.inl (Or.inr ⟨h, hij⟩)
    · exact Or.inr (Or.inr ⟨h.symm, hij⟩)
  · exact Or.inl (Or.inl h)

instance [LinearOrderedField α] (v : List α) : IsTrans ℕ (rankR v) := by
  constructor
  intro i j k hij hjk
  rcases hij with h1 | ⟨h1, h1i⟩ <;> rcases hjk with h2 | ⟨h2, h2i⟩
  · exact Or.inl (h2.trans h1)
  · exact Or.inl (h2 ▸ h1)
  · exact Or.inl (h1 ▸ h2)
  · exact Or.inr ⟨h1.trans h2, h1i.trans h2i⟩

/-- Indices `0 .. v.length - 1` sorted by decreasing value (stable on
ties); the index order underlying the model of `torch.topk` and
`torch.argmax`. -/
def argsortDesc [LinearOrderedField α] (v : List α) : List ℕ :=
  List.insertionSort (rankR v) (List.range v.length)

/-- Model of `probs.topk(k, dim=-1).indices` on one vector: the `k`
indices of largest value, in decreasing value order. -/
def topkIdx [LinearOrderedField α] (k : ℕ) (v : List α) : List ℕ :=
  (argsortDesc v).take k

/-- Model of `torch.argmax` on one vector: index of the first maximal
value. -/
def argmaxIdx [LinearOrderedField α] (v : List α) : ℕ :=
  (argsortDesc v).headD 0

/-- Model of `F.log_softmax` over the last axis on one vector; torch
computes the same function with a numerically shifted formula, and the
spec's contract is numerical-tolerance equivalence. -/
def logSoftmax1 [LinearOrderedField α] (ops : ScalarOps α) (v : List α) : List α :=
  v.map (fun a => a - ops.log ((v.map ops.exp).sum))

/-- Log-softmax over the last axis of a (k, b, v) tensor. -/
def logSoftmax3 [LinearOrderedField α] (ops : ScalarOps α) (x : List (List (List α))) :
    List (List (List α)) :=
  x.map (fun sl => sl.map (logSoftmax1 ops))


/-- Bias-free linear module (`FastLinear.load(config, prefix, weights,
bias=False)`): the weight-name it was loaded from (as the pair of the
f-string stem and the per-head index) together with the loaded (out,
in) matrix.  Carrying the name keeps parameter-object identity
observable: modules loaded from different names are different
records. -/
structure FastLinear (α : Type) where
  key : String × ℕ
  w : List (List α)
deriving DecidableEq

/-- Default linear module for out-of-range list access (never reached
in the theorems). -/
def emptyLin : FastLinear α := ⟨("", 0), []⟩

/-- Embedding module (`TensorParallelEmbedding(prefix, weights)`):
loaded name plus the (vocab, edim) table. -/
structure TensorParallelEmbedding (α : Type) where
  key : String × ℕ
  table : List (List α)
deriving DecidableEq

/-- Default embedding module for out-of-range list access (never
reached in the theorems). -/
def emptyEmb : TensorParallelEmbedding α := ⟨("", 0), []⟩

/-- Constant `SQRT2 = 2 ** 0.5` from the top of the source module. -/
def SQRT2 [LinearOrderedField α] (ops : ScalarOps α) : α := ops.rpow 2 (1 / 2)

/-- State of an `MLPSpeculatorModel` after construction: the per-step
module lists `emb` / `proj` / `head` / `ln`, the optional input
normalizer `ln0` (an attribute only when `scale_input` is set), the
derived mixing scalars, and the configuration scalars read in
`__init__`. -/
structure MLPSpeculatorModel (α : Type) where
  n_predict : ℕ
  hidden_size : ℕ
  tie_weights : Bool
  scale_input : Bool
  emb : List (TensorParallelEmbedding α)
  proj : List (FastLinear α)
  head : List (FastLinear α)
  ln : List (MLPSpeculatorLayerNorm α)
  ln0 : Option (MLPSpeculatorLayerNorm α)
  state_weight : α
  emb_weight : α
  vsize : ℕ
  inner_dim : ℕ
  top_k_tokens_per_head : List ℕ
deriving DecidableEq

/-- Failures a forward call can raise: the assert on the top-k list
length, and the broadcast failure when a `probs.exp()` tensor whose
leading candidate dimension is not 1 is assigned into the
`all_probs[:, i]` slice. -/
inductive SpecErr
  | topkLen
  | recordShape
deriving DecidableEq

/-- Loop-carried state of the forward pass: the candidate-expanded
hidden state (k, b, d), the candidate token ids (k, b), and the list
of `all_probs[:, i]` slices recorded so far (step-major; each slice is
(b, vocab)). -/
structure StepAcc (α : Type) where
  state : List (List (List α))
  ind : List (List ℕ)
  recs : List (List (List α))
deriving DecidableEq

/-- Lines 148-149 of the source: when `scale_input` is set the hidden
state is replaced by `ln0(state) / SQRT2` before the head loop („the
possibly-rescaled input hidden state“). -/
def scaleState [LinearOrderedField α] (ops : ScalarOps α) (m : MLPSpeculatorModel α)
    (h2 : List (List α)) : List (List α) :=
  if m.scale_input then
    (lnForward2 ops (m.ln0.getD emptyLN) h2).map (fun row => row.map (fun a => a / SQRT2 ops))
  else h2

/-- Lines 161-164 of the source, the state handed to the output
projection at step `i`:
`z = emb[i](ind)`, `z = z.mul(emb_weight * sqrt(inner_dim / 2))`,
`state = proj[i](state) * state_weight + z`,
`state = activation(ln[i](state))` with GELU activation. -/
def headInput [LinearOrderedField α] (ops : ScalarOps α) (m : MLPSpeculatorModel α) (i : ℕ)
    (state : List (List (List α))) (ind : List (List ℕ)) : List (List (List α)) :=
  let z0 := embedLookup (m.emb.getD i emptyEmb).table ind
  let z := map3 (fun a => a * (m.emb_weight * ops.sqrt ((m.inner_dim : α) / 2))) z0
  let st := add3 (map3 (fun a => a * m.state_weight) (linear3 (m.proj.getD i emptyLin).w state)) z
  map3 ops.gelu (lnForward3 ops (m.ln.getD i emptyLN) st)

/-- Line 165 of the source: `probs = F.log_softmax(head[i](state),
dim=-1)`, applied to the step-`i` head input. -/
def stepProbs [LinearOrderedField α] (ops : ScalarOps α) (m : MLPSpeculatorModel α) (i : ℕ)
    (state : List (List (List α))) (ind : List (List ℕ)) : List (List (List α)) :=
  logSoftmax3 ops (linear3 (m.head.getD i emptyLin).w (headInput ops m i state ind))

/-- Model of the slice assignment `all_probs[:, i] = probs.exp()`
(line 171): the destination slice has shape (b, vsize) and the value
has shape (k, b, v); the copy succeeds exactly when the leading
candidate dimension is 1 and the remaining shape matches the
destination, and fails with a broadcast error otherwise.  (torch would
additionally accept singleton middle or last source dimensions; those
never arise here because the middle dimension of the running state is
the batch by construction.) -/
def recordSlice (b v : ℕ) (pe : List (List (List α))) : Option (List (List α)) :=
  if pe.length = 1 ∧ (pe.getD 0 []).length = b ∧ ∀ r ∈ pe.getD 0 [], r.length = v then
    some (pe.getD 0 [])
  else none

/-- One iteration of the head loop (lines 159-178).  After computing
the head input, the log-softmax distribution, the per-row top-k
indices and recording `probs.exp()` into the `all_probs` slice, the
state is expanded along a new candidate axis
(`unsqueeze(2).expand(-1, -1, top_k, -1).reshape(-1, b, d)`) and the
ids are re-flattened (`preds.view(-1, b)`). -/
def specStep [LinearOrderedField α] (ops : ScalarOps α) (m : MLPSpeculatorModel α) (b : ℕ)
    (acc : StepAcc α) (i : ℕ) : Except SpecErr (StepAcc α) :=
  let ki := m.top_k_tokens_per_head.getD i 0
  let st := headInput ops m i acc.state acc.ind
  let probs := stepProbs ops m i acc.state acc.ind
  let preds := probs.map (fun sl => sl.map (fun row => topkIdx ki row))
  match recordSlice b m.vsize (map3 ops.exp probs) with
  | none => .error .recordShape
  | some slice =>
    .ok ⟨chunks b ((st.map (fun sl => sl.map (fun row => List.replicate ki row))).flatten.flatten),
         chunks b (preds.flatten.flatten),
         acc.recs ++ [slice]⟩

/-- Accumulator after the first `n` iterations of the head loop,
starting from the possibly-rescaled hidden state and
`ind = input_ids.unsqueeze(0)` (the initial token ids with a leading
candidate count of 1).  The initial 2-D state enters the loop exactly
as a single candidate slice: the step-0 broadcast of the 2-D
`proj(state) * w` against the 3-D `z` of leading dimension 1 is the
same elementwise computation. -/
def runAcc [LinearOrderedField α] (ops : ScalarOps α) (m : MLPSpeculatorModel α)
    (h2 : List (List α)) (ids : List ℕ) (n : ℕ) : Except SpecErr (StepAcc α) :=
  (List.range n).foldl (fun ea i => ea.bind (fun a => specStep ops m h2.length a i))
    (.ok ⟨[scaleState ops m h2], [ids], []⟩)

/-- Forward pass of `MLPSpeculatorModel` (lines 137-181): checks the
assert on the top-k list length, runs the `n_predict` head iterations,
and reinterprets the recorded step-major slices as the returned
(batch, n_predict, vocab) tensor `all_probs` (the source preallocates
that tensor and writes the `[:, i]` slice at step i; every slice of a
successful call is written, so the transposition below is the whole
content).  `b = state.size(0)` equals `h2.length` since the optional
input rescaling is elementwise by rows. -/
def MLPSpeculatorModel.forward [LinearOrderedField α] (ops : ScalarOps α)
    (m : MLPSpeculatorModel α) (h2 : List (List α)) (ids : List ℕ) :
    Except SpecErr (List (List (List α))) :=
  if m.top_k_tokens_per_head.length = m.n_predict then
    (runAcc ops m h2 ids m.n_predict).map
      (fun a => (List.range h2.length).map (fun r => a.recs.map (fun s => s.getD r [])))
  else .error .topkLen

/-- Head wrapper (`MLPSpeculatorHead`): the LM head matrix (the
external vocabulary-projection capability, modelled by its weight
matrix) together with the speculator model. -/
structure MLPSpeculatorHead (α : Type) where
  lm_head : List (List α)
  mlp_speculator : MLPSpeculatorModel α

/-- Forward pass of the head wrapper (lines 190-200): always compute
the LM-head logits; when the batch has more than 128 rows return
`(logits, None)` without touching the speculator, otherwise take the
per-row argmax token ids and run the speculator. -/
def MLPSpeculatorHead.forward [LinearOrderedField α] (ops : ScalarOps α)
    (hd : MLPSpeculatorHead α) (input : List (List α)) :
    Except SpecErr (List (List α) × Option (List (List (List α)))) :=
  let logits := linear2 hd.lm_head input
  if 128 < input.length then .ok (logits, none)
  else
    let input_ids := logits.map argmaxIdx
    (hd.mlp_speculator.forward ops input input_ids).map (fun sp => (logits, some sp))

/-- Contents of `config.speculator_config` that `__init__` reads: the
`tie_weights` and `scale_input` flags (defaulting to false when the
dict lacks them, folded into the field values here) and `inner_dim`. -/
structure SpeculatorConfig where
  tie_weights : Bool
  scale_input : Bool
  inner_dim : ℕ
deriving DecidableEq

/-- Slice of the transformer `config` object that the speculator
construction reads. -/
structure Config where
  hidden_size : ℕ
  vocab_size : ℕ
  speculator_config : SpeculatorConfig
deriving DecidableEq

/-- External weight store: maps a module name (the f-string stem of
the torch parameter name, e.g. "speculator.proj", plus the per-head
index) to the stored matrix, and likewise for the 1-D layer-norm
scale/shift tensors.  Names are modelled as (stem, index) pairs so
that distinct indices give distinct names by construction. -/
structure Weights (α : Type) where
  mat : String × ℕ → List (List α)
  vec : String × ℕ → List α

/-- Model of `FastLinear.load(config, prefix=stem.i, weights, bias=False)`. -/
def FastLinear.load (weights : Weights α) (stem : String) (i : ℕ) : FastLinear α :=
  ⟨(stem, i), weights.mat (stem, i)⟩

/-- Model of `TensorParallelEmbedding(stem.i, weights)`. -/
def TensorParallelEmbedding.load (weights : Weights α) (stem : String) (i : ℕ) :
    TensorParallelEmbedding α :=
  ⟨(stem, i), weights.mat (stem, i)⟩

/-- Model of `MLPSpeculatorLayerNorm(prefix=stem.i, config, weights)`
with the default `eps=1e-06` and `elementwise_scale_and_shift=True`:
loads `stem.i.weight` and `stem.i.bias`. -/
def MLPSpeculatorLayerNorm.load [LinearOrderedField α] (weights : Weights α) (stem : String)
    (i : ℕ) : MLPSpeculatorLayerNorm α :=
  ⟨(stem, i), weights.vec (stem ++ ".weight", i), weights.vec (stem ++ ".bias", i),
    1 / 1000000, true⟩

/-- Failure of construction: the `TypeError` raised by the call
`MLPSpeculatorLayerNorm(self.hidden_size, elementwise_scale_and_shift=False)`
on line 126, which passes `hidden_size` as the `prefix` positional and
omits the required `config` and `weights` positionals. -/
inductive InitErr
  | lnMissingArgs
deriving DecidableEq

/-- Line 129 of the source: `state_weight = 0.5 ** (0.5 / n_predict)`. -/
def stateWeightCalc [LinearOrderedField α] (ops : ScalarOps α) (n : ℕ) : α :=
  ops.rpow (1 / 2) ((1 / 2) / (n : α))

/-- Line 130 of the source: `emb_weight = math.sqrt(1 - state_weight ** 2)`. -/
def embWeightCalc [LinearOrderedField α] (ops : ScalarOps α) (n : ℕ) : α :=
  ops.sqrt (1 - (stateWeightCalc ops n) ^ 2)

/-- Construction of `MLPSpeculatorModel` (lines 56-135).  `n_predict`
comes from the external `get_speculate()` and is passed explicitly.
With `tie_weights` one embedding / output projection / layer norm is
shared by all steps and two projections are built (the first used only
at step 0, the second shared by all later steps); otherwise every step
gets its own modules.  When `scale_input` is set, line 126 calls
`MLPSpeculatorLayerNorm(self.hidden_size,
elementwise_scale_and_shift=False)`, which omits the required `config`
and `weights` positional arguments of the class and raises a
`TypeError`, so construction fails; no `ln0` can ever be built by this
code.  The top-k list is unconditionally `[1] * n_predict`; the
constructor takes no top-k argument and performs no validation of
one. -/
def MLPSpeculatorModel.init [LinearOrderedField α] (ops : ScalarOps α) (config : Config)
    (n_predict : ℕ) (stem : String) (weights : Weights α) :
    Except InitErr (MLPSpeculatorModel α) :=
  let tie := config.speculator_config.tie_weights
  let embL :=
    if tie then
      List.replicate n_predict (TensorParallelEmbedding.load weights (stem ++ ".emb") 0)
    else (List.range n_predict).map (TensorParallelEmbedding.load weights (stem ++ ".emb"))
  let projL :=
    if tie then
      FastLinear.load weights (stem ++ ".proj") 0 ::
        List.replicate (n_predict - 1) (FastLinear.load weights (stem ++ ".proj") 1)
    else (List.range n_predict).map (FastLinear.load weights (stem ++ ".proj"))
  let headL :=
    if tie then List.replicate n_predict (FastLinear.load weights (stem ++ ".head") 0)
    else (List.range n_predict).map (FastLinear.load weights (stem ++ ".head"))
  let lnL :=
    if tie then List.replicate n_predict (MLPSpeculatorLayerNorm.load weights (stem ++ ".ln") 0)
    else (List.range n_predict).map (MLPSpeculatorLayerNorm.load weights (stem ++ ".ln"))
  if config.speculator_config.scale_input then .error .lnMissingArgs
  else
    .ok
      { n_predict := n_predict
        hidden_size := config.hidden_size
        tie_weights := tie
        scale_input := config.speculator_config.scale_input
        emb := embL
        proj := projL
        head := headL
        ln := lnL
        ln0 := none
        state_weight := stateWeightCalc ops n_predict
        emb_weight := embWeightCalc ops n_predict
        vsize := config.vocab_size
        inner_dim := config.speculator_config.inner_dim
        top_k_tokens_per_head := List.replicate n_predict 1 }

/-- Lookup of a parameter key in the routing table (an association
list modelling the `weights.routing` dict). -/
def findRoute (k : String) : List (String × String) → Option String
  | [] => none
  | (k2, f) :: rest => if k2 = k then some f else findRoute k rest

/-- Lines 213-218 of the source, for one key of one file: raise when
the key is already routed to a different file, otherwise route it to
this file (re-routing to the same file is a no-op).  The error carries
(key, new file, old file). -/
def routeKey (r : List (String × String)) (filename : String) (k : String) :
    Except (String × String × String) (List (String × String)) :=
  match findRoute k r with
  | some f => if f ≠ filename then .error (k, filename, f) else .ok r
  | none => .ok ((k, filename) :: r)

/-- One key folded into the running routing result (failure is
absorbing, like an exception escaping the loop). -/
def routeStep (fn : String) (a : Except (String × String × String) (List (String × String)))
    (k : String) : Except (String × String × String) (List (String × String)) :=
  a.bind (fun r => routeKey r fn k)

/-- All keys of one source file routed in order. -/
def routeFile (acc : Except (String × String × String) (List (String × String)))
    (file : String × List String) : Except (String × String × String) (List (String × String)) :=
  file.2.foldl (routeStep file.1) acc

/-- Key-routing loop of `MLPSpeculatorHead.load` (lines 209-218):
every file of `config.speculator["model_paths"]` (given here with its
resolved filename and its safetensors keys) claims its keys in order,
starting from the routing table `r0`. -/
def loadRouting (files : List (String × List String)) (r0 : List (String × String)) :
    Except (String × String × String) (List (String × String)) :=
  files.foldl routeFile (.ok r0)

deriving instance DecidableEq for Except

/-! Basic lemmas about the tensor helpers. -/

theorem chunks_cons_eq {b : ℕ} (hb : 0 < b) (l : List γ) (hl : l ≠ []) :
    chunks b l = l.take b :: chunks b (l.drop b) := by
  match b, l with
  | 0, _ => omega
  | b + 1, [] => exact absurd rfl hl
  | b + 1, x :: xs =>
    simp only [chunks]
    rw [List.drop_succ_cons]

theorem chunks_flatten {b : ℕ} (hb : 0 < b) (L : List (List γ))
    (h : ∀ r ∈ L, r.length = b) : chunks b L.flatten = L := by
  induction L with
  | nil =>
    simp only [List.flatten_nil]
    simp [chunks]
  | cons r L ih =>
    have hr : r.length = b := h r (List.mem_cons_self r L)
    have hrne : r ≠ [] := by
      intro h0
      rw [h0] at hr
      simp at hr
      omega
    have hfl : (r :: L).flatten = r ++ L.flatten := by simp
    have hne : (r :: L).flatten ≠ [] := by
      rw [hfl]
      intro h0
      rcases List.append_eq_nil.mp h0 with ⟨h1, _⟩
      exact hrne h1
    have h1 : (r ++ L.flatten).take b = r := by
      rw [← hr]
      exact List.take_left r L.flatten
    have h2 : (r ++ L.flatten).drop b = L.flatten := by
      rw [← hr]
      exact List.drop_left r L.flatten
    rw [chunks_cons_eq hb _ hne, hfl, h1, h2,
      ih (fun s hs => h s (List.mem_cons_of_mem r hs))]

theorem chunks_self {b : ℕ} (hb : 0 < b) (l : List γ) (hl : l.length = b) :
    chunks b l = [l] := by
  have := chunks_flatten hb [l] (by simpa using hl)
  simpa using this

theorem getD_map_of_lt {f : α → γ} {l : List α} {j : ℕ} (hj : j < l.length) (d : γ) (d0 : α) :
    (l.map f).getD j d = f (l.getD j d0) := by
  rw [List.getD_eq_getElem?_getD, List.getD_eq_getElem?_getD, List.getElem?_map,
    List.getElem?_eq_getElem hj]
  rfl

theorem getD_append_left {l l2 : List α} {j : ℕ} (hj : j < l.length) (d : α) :
    (l ++ l2).getD j d = l.getD j d := by
  rw [List.getD_eq_getElem?_getD, List.getD_eq_getElem?_getD, List.getElem?_append_left hj]

theorem length_add3 [LinearOrderedField α] (x y : List (List (List α))) :
    (add3 x y).length = min x.length y.length := by
  simp [add3]

theorem length_scaleState [LinearOrderedField α] (ops : ScalarOps α)
    (m : MLPSpeculatorModel α) (h2 : List (List α)) :
    (scaleState ops m h2).length = h2.length := by
  unfold scaleState
  split <;> simp [lnForward2]

theorem runAcc_zero [LinearOrderedField α] (ops : ScalarOps α) (m : MLPSpeculatorModel α)
    (h2 : List (List α)) (ids : List ℕ) :
    runAcc ops m h2 ids 0 = .ok ⟨[scaleState ops m h2], [ids], []⟩ := rfl

theorem runAcc_succ [LinearOrderedField α] (ops : ScalarOps α) (m : MLPSpeculatorModel α)
    (h2 : List (List α)) (ids : List ℕ) (n : ℕ) :
    runAcc ops m h2 ids (n + 1) =
      (runAcc ops m h2 ids n).bind (fun a => specStep ops m h2.length a n) := by
  unfold runAcc
  rw [List.range_succ, List.foldl_append]
  rfl

/-! Lemmas about the top-k / argmax index selection. -/

theorem argsortDesc_perm [LinearOrderedField α] (v : List α) :
    (argsortDesc v).Perm (List.range v.length) :=
  List.perm_insertionSort (rankR v) (List.range v.length)

theorem argsortDesc_length [LinearOrderedField α] (v : List α) :
    (argsortDesc v).length = v.length := by
  rw [(argsortDesc_perm v).length_eq, List.length_range]

theorem argsortDesc_nodup [LinearOrderedField α] (v : List α) : (argsortDesc v).Nodup :=
  ((argsortDesc_perm v).nodup_iff).mpr (List.nodup_range v.length)

theorem mem_argsortDesc [LinearOrderedField α] (v : List α) (i : ℕ) :
    i ∈ argsortDesc v ↔ i < v.length := by
  rw [(argsortDesc_perm v).mem_iff, List.mem_range]

theorem argsortDesc_sorted [LinearOrderedField α] (v : List α) :
    List.Sorted (rankR v) (argsortDesc v) :=
  List.sorted_insertionSort (rankR v) (List.range v.length)

theorem topkIdx_length [LinearOrderedField α] {k : ℕ} {v : List α} (h : k ≤ v.length) :
    (topkIdx k v).length = k := by
  rw [topkIdx, List.length_take, argsortDesc_length]
  omega

theorem topkIdx_nodup [LinearOrderedField α] (k : ℕ) (v : List α) : (topkIdx k v).Nodup :=
  (argsortDesc_nodup v).sublist (List.take_sublist k (argsortDesc v))

theorem topkIdx_mem_lt [LinearOrderedField α] {k : ℕ} {v : List α} {i : ℕ}
    (h : i ∈ topkIdx k v) : i < v.length :=
  (mem_argsortDesc v i).mp (List.mem_of_mem_take h)

theorem rankR_le [LinearOrderedField α] {v : List α} {i j : ℕ} (h : rankR v i j) :
    v.getD j 0 ≤ v.getD i 0 := by
  rcases h with h | ⟨h, _⟩
  · exact h.le
  · exact h.ge

theorem topkIdx_sorted_vals [LinearOrderedField α] (k : ℕ) (v : List α) :
    List.Sorted (fun a b => b ≤ a) ((topkIdx k v).map (fun i => v.getD i 0)) := by
  have hs : List.Sorted (rankR v) (topkIdx k v) :=
    (argsortDesc_sorted v).sublist (List.take_sublist k (argsortDesc v))
  exact List.Pairwise.map _ (fun a b hab => rankR_le hab) hs

theorem topkIdx_dominates [LinearOrderedField α] {k : ℕ} {v : List α} {i j : ℕ}
    (hj : j < v.length) (hjn : j ∉ topkIdx k v) (hi : i ∈ topkIdx k v) :
    v.getD j 0 ≤ v.getD i 0 := by
  have hsp : List.Pairwise (rankR v) ((argsortDesc v).take k ++ (argsortDesc v).drop k) := by
    rw [List.take_append_drop]
    exact argsortDesc_sorted v
  have hcross := (List.pairwise_append.mp hsp).2.2
  have hjmem : j ∈ (argsortDesc v).take k ++ (argsortDesc v).drop k := by
    rw [List.take_append_drop]
    exact (mem_argsortDesc v j).mpr hj
  have hjdrop : j ∈ (argsortDesc v).drop k := by
    rcases List.mem_append.mp hjmem with h | h
    · exact absurd h hjn
    · exact h
  exact rankR_le (hcross i hi j hjdrop)

theorem argmaxIdx_lt [LinearOrderedField α] {v : List α} (hv : v ≠ []) :
    argmaxIdx v < v.length := by
  have hne : argsortDesc v ≠ [] := by
    intro h0
    have := argsortDesc_length v
    rw [h0] at this
    simp at this
    exact hv (List.eq_nil_of_length_eq_zero this.symm)
  rcases List.exists_cons_of_ne_nil hne with ⟨h0, t, ht⟩
  have : argmaxIdx v = h0 := by
    rw [argmaxIdx, ht]
    rfl
  rw [this]
  exact (mem_argsortDesc v h0).mp (ht ▸ List.mem_cons_self h0 t)

theorem argmaxIdx_max [LinearOrderedField α] {v : List α} (hv : v ≠ []) {j : ℕ}
    (hj : j < v.length) :
    v.getD j 0 ≤ v.getD (argmaxIdx v) 0 ∧
      (v.getD j 0 = v.getD (argmaxIdx v) 0 → argmaxIdx v ≤ j) := by
  have hne : argsortDesc v ≠ [] := by
    intro h0
    have := argsortDesc_length v
    rw [h0] at this
    simp at this
    exact hv (List.eq_nil_of_length_eq_zero this.symm)
  rcases List.exists_cons_of_ne_nil hne with ⟨h0, t, ht⟩
  have hhd : argmaxIdx v = h0 := by
    rw [argmaxIdx, ht]
    rfl
  have hjmem : j ∈ argsortDesc v := (mem_argsortDesc v j).mpr hj
  rw [ht] at hjmem
  rw [hhd]
  rcases List.mem_cons.mp hjmem with rfl | hjt
  · exact ⟨le_refl _, fun _ => le_refl _⟩
  · have hsort := argsortDesc_sorted v
    rw [ht] at hsort
    have hr : rankR v h0 j := (List.pairwise_cons.mp hsort).1 j hjt
    refine ⟨rankR_le hr, fun heq => ?_⟩
    rcases hr with h | ⟨_, h⟩
    · exact absurd heq (ne_of_lt h)
    · exact h

/-! Shape invariants of the forward loop. -/

/-- Well-formedness of the loop accumulator in the configurations the
source can actually run (candidate count 1): one candidate slice of
`b` state rows and one candidate row of `b` token ids. -/
def accWF (b : ℕ) (a : StepAcc α) : Prop :=
  a.state.length = 1 ∧ (∀ sl ∈ a.state, sl.length = b) ∧
    a.ind.length = 1 ∧ (∀ r ∈ a.ind, r.length = b)

/-- Value recorded into `all_probs[:, i]` at step `i`, as a function
of the step-`i` accumulator: the single candidate slice of
`probs.exp()`. -/
def recSlice [LinearOrderedField α] (ops : ScalarOps α) (m : MLPSpeculatorModel α) (i : ℕ)
    (a : StepAcc α) : List (List α) :=
  (map3 ops.exp (stepProbs ops m i a.state a.ind)).getD 0 []

theorem flatten_map_singleton (l : List γ) : (l.map (fun x => [x])).flatten = l := by
  induction l with
  | nil => rfl
  | cons x xs ih => simp [ih]

theorem length_flatten_of_const {L : List (List γ)} {c : ℕ} (h : ∀ r ∈ L, r.length = c) :
    L.flatten.length = L.length * c := by
  induction L with
  | nil => simp
  | cons r L ih =>
    have hr := h r (List.mem_cons_self r L)
    have := ih (fun s hs => h s (List.mem_cons_of_mem r hs))
    simp only [List.flatten_cons, List.length_append, List.length_cons, this, hr]
    ring

theorem length_matvec [LinearOrderedField α] (w : List (List α)) (x : List α) :
    (matvec w x).length = w.length := by
  simp [matvec]

theorem length_logSoftmax1 [LinearOrderedField α] (ops : ScalarOps α) (v : List α) :
    (logSoftmax1 ops v).length = v.length := by
  simp [logSoftmax1]

theorem headInput_shape [LinearOrderedField α] (ops : ScalarOps α) (m : MLPSpeculatorModel α)
    (i : ℕ) {b : ℕ} {a : StepAcc α} (hwf : accWF b a) :
    ∃ st, headInput ops m i a.state a.ind = [st] ∧ st.length = b := by
  obtain ⟨hs1, hs2, hi1, hi2⟩ := hwf
  obtain ⟨s0, hs0⟩ := List.length_eq_one.mp hs1
  obtain ⟨r0, hr0⟩ := List.length_eq_one.mp hi1
  have hs0len : s0.length = b := hs2 s0 (hs0 ▸ List.mem_cons_self s0 [])
  have hr0len : r0.length = b := hi2 r0 (hr0 ▸ List.mem_cons_self r0 [])
  rw [hs0, hr0]
  refine ⟨_, rfl, ?_⟩
  simp [headInput, map3, add3, linear3, linear2, lnForward3, lnForward2, embedLookup,
    hs0len, hr0len]

theorem stepProbs_shape [LinearOrderedField α] (ops : ScalarOps α) (m : MLPSpeculatorModel α)
    (i : ℕ) {b : ℕ} {a : StepAcc α} (hwf : accWF b a) :
    ∃ st, headInput ops m i a.state a.ind = [st] ∧ st.length = b ∧
      stepProbs ops m i a.state a.ind =
        [st.map (fun row => logSoftmax1 ops (matvec (m.head.getD i emptyLin).w row))] := by
  obtain ⟨st, hst, hlen⟩ := headInput_shape ops m i hwf
  refine ⟨st, hst, hlen, ?_⟩
  rw [stepProbs, hst]
  simp [linear3, linear2, logSoftmax3, List.map_map]

theorem specStep_ok [LinearOrderedField α] (ops : ScalarOps α) (m : MLPSpeculatorModel α)
    {b : ℕ} {a : StepAcc α} (i : ℕ) (hwf : accWF b a)
    (hhead : ((m.head.getD i emptyLin).w).length = m.vsize) :
    specStep ops m b a i =
      .ok ⟨chunks b
             (((headInput ops m i a.state a.ind).map
               (fun sl => sl.map
                 (fun row => List.replicate (m.top_k_tokens_per_head.getD i 0) row))).flatten.flatten),
           chunks b
             (((stepProbs ops m i a.state a.ind).map
               (fun sl => sl.map
                 (fun row => topkIdx (m.top_k_tokens_per_head.getD i 0) row))).flatten.flatten),
           a.recs ++ [recSlice ops m i a]⟩ ∧
      (recSlice ops m i a).length = b ∧
      (∀ r ∈ recSlice ops m i a, r.length = m.vsize) := by
  obtain ⟨st, hst, hstlen, hps⟩ := stepProbs_shape ops m i hwf
  have hpe : map3 ops.exp (stepProbs ops m i a.state a.ind) =
      [(st.map (fun row => logSoftmax1 ops (matvec (m.head.getD i emptyLin).w row))).map
        (fun row => row.map ops.exp)] := by
    rw [hps]
    rfl
  have hslice : recSlice ops m i a =
      (st.map (fun row => logSoftmax1 ops (matvec (m.head.getD i emptyLin).w row))).map
        (fun row => row.map ops.exp) := by
    rw [recSlice, hpe]
    rfl
  have hslen : (recSlice ops m i a).length = b := by
    rw [hslice]
    simp [hstlen]
  have hsrows : ∀ r ∈ recSlice ops m i a, r.length = m.vsize := by
    rw [hslice]
    intro r hr
    rcases List.mem_map.mp hr with ⟨r0, hr0, rfl⟩
    rcases List.mem_map.mp hr0 with ⟨row, _, rfl⟩
    simp only [List.length_map, length_logSoftmax1, length_matvec]
    exact hhead
  have hrec : recordSlice b m.vsize (map3 ops.exp (stepProbs ops m i a.state a.ind)) =
      some (recSlice ops m i a) := by
    have hgd : (map3 ops.exp (stepProbs ops m i a.state a.ind)).getD 0 [] =
        recSlice ops m i a := rfl
    rw [recordSlice, if_pos]
    · rw [hgd]
    · refine ⟨?_, ?_, ?_⟩
      · rw [hpe]
        rfl
      · rw [hgd]
        exact hslen
      · rw [hgd]
        exact hsrows
  refine ⟨?_, hslen, hsrows⟩
  rw [specStep]
  rw [hrec]

theorem specStep_ok_one [LinearOrderedField α] (ops : ScalarOps α) (m : MLPSpeculatorModel α)
    {b : ℕ} {a : StepAcc α} (i : ℕ) (hb : 0 < b) (hwf : accWF b a) (hv : 0 < m.vsize)
    (hhead : ((m.head.getD i emptyLin).w).length = m.vsize)
    (hk1 : m.top_k_tokens_per_head.getD i 0 = 1) :
    ∃ a2, specStep ops m b a i = .ok a2 ∧ accWF b a2 ∧
      a2.recs = a.recs ++ [recSlice ops m i a] ∧
      a2.state = headInput ops m i a.state a.ind := by
  obtain ⟨st, hst, hstlen, hps⟩ := stepProbs_shape ops m i hwf
  obtain ⟨hstep, hslen, hsrows⟩ := specStep_ok ops m i hwf hhead
  rw [hk1] at hstep
  have hnewstate :
      chunks b (((headInput ops m i a.state a.ind).map
        (fun sl => sl.map (fun row => List.replicate 1 row))).flatten.flatten) = [st] := by
    rw [hst]
    have h1 : ([st].map (fun sl => sl.map (fun row => List.replicate 1 row))).flatten =
        st.map (fun row => [row]) := by
      simp
    rw [h1, flatten_map_singleton]
    exact chunks_self hb st hstlen
  have hflatind : (((st.map
      (fun row => logSoftmax1 ops (matvec (m.head.getD i emptyLin).w row))).map
        (fun row => topkIdx 1 row)).flatten).length = b := by
    rw [length_flatten_of_const, List.length_map, List.length_map, hstlen, mul_one]
    intro r hr
    rcases List.mem_map.mp hr with ⟨row, hrow, rfl⟩
    rcases List.mem_map.mp hrow with ⟨row0, _, rfl⟩
    apply topkIdx_length
    rw [length_logSoftmax1, length_matvec]
    omega
  have hflatten1 : (((stepProbs ops m i a.state a.ind).map
      (fun sl => sl.map (fun row => topkIdx 1 row))).flatten.flatten) =
      ((st.map (fun row => logSoftmax1 ops (matvec (m.head.getD i emptyLin).w row))).map
        (fun row => topkIdx 1 row)).flatten := by
    rw [hps]
    simp
  have hnewind : chunks b (((stepProbs ops m i a.state a.ind).map
      (fun sl => sl.map (fun row => topkIdx 1 row))).flatten.flatten) =
      [((st.map (fun row => logSoftmax1 ops (matvec (m.head.getD i emptyLin).w row))).map
        (fun row => topkIdx 1 row)).flatten] := by
    rw [hflatten1]
    exact chunks_self hb _ hflatind
  rw [hnewstate, hnewind] at hstep
  refine ⟨_, hstep, ?_, rfl, hst.symm⟩
  refine ⟨rfl, ?_, rfl, ?_⟩
  · intro sl hsl
    have : sl = st := by simpa using hsl
    rw [this]
    exact hstlen
  · intro r hr
    have : r = ((st.map
        (fun row => logSoftmax1 ops (matvec (m.head.getD i emptyLin).w row))).map
          (fun row => topkIdx 1 row)).flatten := by
      simpa using hr
    rw [this]
    exact hflatind

theorem getD_concat_length (l : List γ) (x : γ) (d : γ) : (l ++ [x]).getD l.length d = x := by
  rw [List.getD_eq_getElem?_getD, List.getElem?_concat_length]
  rfl

/-- Invariant of the head loop under the configurations the source can
run (all non-final top-k values 1): every step up to `n` succeeds, the
accumulator keeps one candidate slice of `b` rows while further steps
remain, and the recorded `all_probs` slices are exactly the
`probs.exp()` slices of the earlier accumulators. -/
theorem runAcc_ok [LinearOrderedField α] (ops : ScalarOps α) (m : MLPSpeculatorModel α)
    (h2 : List (List α)) (ids : List ℕ) (n : ℕ) (hb : 0 < h2.length)
    (hids : ids.length = h2.length) (hv : 0 < m.vsize)
    (hheads : ∀ i, i < n → ((m.head.getD i emptyLin).w).length = m.vsize)
    (hones : ∀ i, i + 1 < n → m.top_k_tokens_per_head.getD i 0 = 1) :
    ∀ i, i ≤ n → ∃ a, runAcc ops m h2 ids i = .ok a ∧
      (i < n → accWF h2.length a) ∧
      a.recs.length = i ∧
      (∀ s ∈ a.recs, s.length = h2.length ∧ ∀ r ∈ s, r.length = m.vsize) ∧
      (∀ j, j < i → ∃ aj, runAcc ops m h2 ids j = .ok aj ∧
        a.recs.getD j [] = recSlice ops m j aj) := by
  intro i
  induction i with
  | zero =>
    intro _
    refine ⟨⟨[scaleState ops m h2], [ids], []⟩, runAcc_zero ops m h2 ids, ?_, rfl, ?_, ?_⟩
    · intro _
      refine ⟨rfl, ?_, rfl, ?_⟩
      · intro sl hsl
        have : sl = scaleState ops m h2 := by simpa using hsl
        rw [this]
        exact length_scaleState ops m h2
      · intro r hr
        have : r = ids := by simpa using hr
        rw [this]
        exact hids
    · intro s hs
      simp at hs
    · intro j hj
      omega
  | succ i ih =>
    intro hin
    obtain ⟨a, ha, hwfc, hlen, hshapes, hchar⟩ := ih (by omega)
    have hwf : accWF h2.length a := hwfc (by omega)
    have hhead := hheads i (by omega)
    obtain ⟨hslen, hsrows⟩ := (specStep_ok ops m i hwf hhead).2
    have hexists : ∃ a2, specStep ops m h2.length a i = .ok a2 ∧
        a2.recs = a.recs ++ [recSlice ops m i a] ∧ ((i + 1 < n) → accWF h2.length a2) := by
      rcases Nat.lt_or_ge (i + 1) n with hlt | hge
      · obtain ⟨a2, hstep, hwf2, hrecs2, _⟩ :=
          specStep_ok_one ops m i hb hwf hv hhead (hones i hlt)
        exact ⟨a2, hstep, hrecs2, fun _ => hwf2⟩
      · exact ⟨_, (specStep_ok ops m i hwf hhead).1, rfl, fun hcon => absurd hcon (by omega)⟩
    obtain ⟨a2, hstep2, hrecs2, hwf2⟩ := hexists
    refine ⟨a2, ?_, hwf2, ?_, ?_, ?_⟩
    · rw [runAcc_succ, ha]
      exact hstep2
    · rw [hrecs2, List.length_append, hlen]
      rfl
    · intro s hs
      rw [hrecs2] at hs
      rcases List.mem_append.mp hs with h | h
      · exact hshapes s h
      · have : s = recSlice ops m i a := by simpa using h
        rw [this]
        exact ⟨hslen, hsrows⟩
    · intro j hj
      rcases Nat.lt_or_ge j i with hji | hji
      · obtain ⟨aj, haj, hchar2⟩ := hchar j hji
        refine ⟨aj, haj, ?_⟩
        rw [hrecs2, getD_append_left (show j < a.recs.length by omega), hchar2]
      · have hj_eq : j = i := by omega
        subst hj_eq
        refine ⟨a, ha, ?_⟩
        rw [hrecs2, ← hlen, getD_concat_length]

theorem getD_mem_of_lt {l : List γ} {n : ℕ} (h : n < l.length) (d : γ) : l.getD n d ∈ l := by
  rw [List.getD_eq_getElem?_getD, List.getElem?_eq_getElem h]
  exact List.getElem_mem h

/-- Sum of `exp` over a log-softmax output is exactly 1 (in exact real
arithmetic) whenever the logits row is nonempty. -/
theorem sum_exp_logSoftmax (ops : ScalarOps ℝ) (hexp : ops.exp = Real.exp)
    (hlog : ops.log = Real.log) (w : List ℝ) (hw : w ≠ []) :
    ((logSoftmax1 ops w).map ops.exp).sum = 1 := by
  rw [logSoftmax1, hexp, hlog, List.map_map]
  have hS : 0 < (w.map Real.exp).sum := by
    apply List.sum_pos
    · intro x hx
      rcases List.mem_map.mp hx with ⟨y, _, rfl⟩
      exact Real.exp_pos y
    · intro h0
      exact hw (List.map_eq_nil_iff.mp h0)
  have hfun : (Real.exp ∘ fun a => a - Real.log ((w.map Real.exp).sum)) =
      fun a => Real.exp a * ((w.map Real.exp).sum)⁻¹ := by
    funext a
    simp [Function.comp, Real.exp_sub, Real.exp_log hS, div_eq_mul_inv]
  rw [hfun, List.sum_map_mul_right]
  exact mul_inv_cancel₀ (ne_of_gt hS)

/-- Unit row sums of a recorded slice: with the real exponential and
logarithm, every row of the `probs.exp()` slice recorded at a step
sums to exactly 1. -/
theorem recSlice_row_sum (ops : ScalarOps ℝ) (hexp : ops.exp = Real.exp)
    (hlog : ops.log = Real.log) (m : MLPSpeculatorModel ℝ) (i : ℕ) {b : ℕ} {a : StepAcc ℝ}
    (hwf : accWF b a) (hv : 0 < m.vsize)
    (hhead : ((m.head.getD i emptyLin).w).length = m.vsize) :
    ∀ r ∈ recSlice ops m i a, r.sum = 1 := by
  obtain ⟨st, hst, hstlen, hps⟩ := stepProbs_shape ops m i hwf
  have hslice : recSlice ops m i a =
      (st.map (fun row => logSoftmax1 ops (matvec (m.head.getD i emptyLin).w row))).map
        (fun row => row.map ops.exp) := by
    rw [recSlice, hps]
    rfl
  rw [hslice]
  intro r hr
  rcases List.mem_map.mp hr with ⟨r0, hr0, rfl⟩
  rcases List.mem_map.mp hr0 with ⟨row, _, rfl⟩
  apply sum_exp_logSoftmax ops hexp hlog
  intro h0
  have : (matvec (m.head.getD i emptyLin).w row).length = 0 := by
    rw [h0]
    rfl
  rw [length_matvec, hhead] at this
  omega


/-! Lemmas about the key-routing loop. -/

theorem routeKey_ok_preserves {r r' : List (String × String)} {fn k : String}
    (h : routeKey r fn k = .ok r') :
    (∀ k2 f2, findRoute k2 r = some f2 → findRoute k2 r' = some f2) ∧
      findRoute k r' = some fn := by
  unfold routeKey at h
  cases hf : findRoute k r with
  | none =>
    rw [hf] at h
    simp only [] at h
    injection h with h
    subst h
    constructor
    · intro k2 f2 h2
      have hkk : k ≠ k2 := by
        intro hkk
        rw [hkk] at hf
        rw [hf] at h2
        exact Option.noConfusion h2
      rw [findRoute, if_neg hkk]
      exact h2
    · rw [findRoute, if_pos rfl]
  | some f =>
    rw [hf] at h
    by_cases hfe : f = fn
    · simp only [hfe, ne_eq, not_true_eq_false, if_false, ite_false] at h
      have h' : r = r' := by
        simpa using h
      subst h'
      exact ⟨fun _ _ h2 => h2, hfe ▸ hf⟩
    · simp only [ne_eq, hfe, not_false_eq_true, if_true, ite_true] at h
      exact absurd h (by simp)

theorem fileFold_error (fn : String) (ks : List String) (e : String × String × String) :
    ks.foldl (routeStep fn) (.error e) = .error e := by
  induction ks with
  | nil => rfl
  | cons k ks ih => exact ih

theorem fileFold_ok_facts (fn : String) (ks : List String) :
    ∀ r0 r1, ks.foldl (routeStep fn) (.ok r0) = .ok r1 →
      (∀ k2 f2, findRoute k2 r0 = some f2 → findRoute k2 r1 = some f2) ∧
        (∀ k ∈ ks, findRoute k r1 = some fn) := by
  induction ks with
  | nil =>
    intro r0 r1 h
    injection h with h
    subst h
    refine ⟨fun _ _ h2 => h2, ?_⟩
    intro k hk
    simp at hk
  | cons k ks ih =>
    intro r0 r1 h
    rw [List.foldl_cons] at h
    have hstep : List.foldl (routeStep fn) (routeKey r0 fn k) ks = .ok r1 := h
    cases hrk : routeKey r0 fn k with
    | error e =>
      rw [hrk, fileFold_error] at hstep
      exact Except.noConfusion hstep
    | ok r0' =>
      rw [hrk] at hstep
      obtain ⟨hpres, hks⟩ := ih r0' r1 hstep
      obtain ⟨hpres0, hbind⟩ := routeKey_ok_preserves hrk
      refine ⟨fun k2 f2 h2 => hpres k2 f2 (hpres0 k2 f2 h2), ?_⟩
      intro k2 hk2
      rcases List.mem_cons.mp hk2 with rfl | hk2
      · exact hpres k2 fn hbind
      · exact hks k2 hk2

theorem loadRouting_error (files : List (String × List String)) (e : String × String × String) :
    files.foldl routeFile (.error e) = .error e := by
  induction files with
  | nil => rfl
  | cons f fs ih =>
    rw [List.foldl_cons, routeFile, fileFold_error]
    exact ih

theorem loadRouting_ok_facts (files : List (String × List String)) :
    ∀ r0 r, loadRouting files r0 = .ok r →
      (∀ k2 f2, findRoute k2 r0 = some f2 → findRoute k2 r = some f2) ∧
        (∀ file ∈ files, ∀ k ∈ file.2, findRoute k r = some file.1) := by
  induction files with
  | nil =>
    intro r0 r h
    injection h with h
    subst h
    refine ⟨fun _ _ h2 => h2, ?_⟩
    intro f hf
    simp at hf
  | cons file files ih =>
    intro r0 r h
    rw [loadRouting, List.foldl_cons] at h
    have h2 : files.foldl routeFile (routeFile (.ok r0) file) = .ok r := h
    cases hrf : routeFile (.ok r0) file with
    | error e =>
      rw [hrf, loadRouting_error] at h2
      exact Except.noConfusion h2
    | ok r1 =>
      rw [hrf] at h2
      obtain ⟨hpres, hfiles⟩ := ih r1 r h2
      obtain ⟨hpres0, hthis⟩ := fileFold_ok_facts file.1 file.2 r0 r1 hrf
      refine ⟨fun k2 f2 hk => hpres k2 f2 (hpres0 k2 f2 hk), ?_⟩
      intro f hf k hk
      rcases List.mem_cons.mp hf with rfl | hf
      · exact hpres k f.1 (hthis k hk)
      · exact hfiles f hf k hk


theorem fileFold_ok_exists (fn : String) (ks : List String) :
    ∀ r0, (∀ k ∈ ks, ∀ f, findRoute k r0 = some f → f = fn) →
      ∃ r1, ks.foldl (routeStep fn) (.ok r0) = .ok r1 ∧
        (∀ k2 f2, findRoute k2 r1 = some f2 →
          findRoute k2 r0 = some f2 ∨ (k2 ∈ ks ∧ f2 = fn)) := by
  induction ks with
  | nil => exact fun r0 _ => ⟨r0, rfl, fun _ _ h2 => Or.inl h2⟩
  | cons k ks ih =>
    intro r0 hcompat
    have hstep : ∃ r0', routeKey r0 fn k = .ok r0' ∧
        (∀ k2 f2, findRoute k2 r0' = some f2 →
          findRoute k2 r0 = some f2 ∨ (k2 = k ∧ f2 = fn)) := by
      unfold routeKey
      cases hf : findRoute k r0 with
      | none =>
        refine ⟨(k, fn) :: r0, by simp, ?_⟩
        intro k2 f2 h2
        rw [findRoute] at h2
        by_cases hkk : k = k2
        · rw [if_pos hkk] at h2
          injection h2 with h2
          exact Or.inr ⟨hkk.symm, h2.symm⟩
        · rw [if_neg hkk] at h2
          exact Or.inl h2
      | some f =>
        have hfn : f = fn := hcompat k (List.mem_cons_self k ks) f hf
        refine ⟨r0, by simp [hfn], fun _ _ h2 => Or.inl h2⟩
    obtain ⟨r0', hrk, hback⟩ := hstep
    have hcompat2 : ∀ k2 ∈ ks, ∀ f, findRoute k2 r0' = some f → f = fn := by
      intro k2 hk2 f h2
      rcases hback k2 f h2 with h3 | ⟨_, h3⟩
      · exact hcompat k2 (List.mem_cons_of_mem k hk2) f h3
      · exact h3
    obtain ⟨r1, hfold, hback2⟩ := ih r0' hcompat2
    refine ⟨r1, ?_, ?_⟩
    · rw [List.foldl_cons]
      have hrs : routeStep fn (.ok r0) k = routeKey r0 fn k := rfl
      rw [hrs, hrk]
      exact hfold
    · intro k2 f2 h2
      rcases hback2 k2 f2 h2 with h3 | ⟨hmem, h3⟩
      · rcases hback k2 f2 h3 with h4 | ⟨h4, h5⟩
        · exact Or.inl h4
        · exact Or.inr ⟨h4 ▸ List.mem_cons_self k ks, h5⟩
      · exact Or.inr ⟨List.mem_cons_of_mem k hmem, h3⟩

theorem loadRouting_ok_exists (files : List (String × List String)) :
    ∀ r0, (∀ file ∈ files, ∀ k ∈ file.2, ∀ f, findRoute k r0 = some f → f = file.1) →
      (∀ f1 ∈ files, ∀ f2 ∈ files, ∀ k, k ∈ f1.2 → k ∈ f2.2 → f1.1 = f2.1) →
      ∃ r, loadRouting files r0 = .ok r := by
  induction files with
  | nil => exact fun r0 _ _ => ⟨r0, rfl⟩
  | cons file files ih =>
    intro r0 hcompat hcross
    obtain ⟨r1, hfold, hback⟩ :=
      fileFold_ok_exists file.1 file.2 r0
        (fun k hk f hf => hcompat file (List.mem_cons_self file files) k hk f hf)
    have hcompat2 : ∀ f2 ∈ files, ∀ k ∈ f2.2, ∀ f, findRoute k r1 = some f → f = f2.1 := by
      intro f2 hf2 k hk f hf
      rcases hback k f hf with h3 | ⟨hmem, h3⟩
      · exact hcompat f2 (List.mem_cons_of_mem file hf2) k hk f h3
      · rw [h3]
        exact hcross file (List.mem_cons_self file files) f2
          (List.mem_cons_of_mem file hf2) k hmem hk
    have hcross2 : ∀ f1 ∈ files, ∀ f2 ∈ files, ∀ k, k ∈ f1.2 → k ∈ f2.2 → f1.1 = f2.1 :=
      fun f1 hf1 f2 hf2 k hk1 hk2 =>
        hcross f1 (List.mem_cons_of_mem file hf1) f2 (List.mem_cons_of_mem file hf2) k hk1 hk2
    obtain ⟨r, hr⟩ := ih r1 hcompat2 hcross2
    refine ⟨r, ?_⟩
    rw [loadRouting, List.foldl_cons]
    have hrf : routeFile (.ok r0) file = .ok r1 := hfold
    rw [hrf]
    exact hr

/-- Inversion of a successful loop iteration: the fields of the
produced accumulator, independent of any well-formedness assumption. -/
theorem specStep_ok_inv [LinearOrderedField α] {ops : ScalarOps α} {m : MLPSpeculatorModel α}
    {b : ℕ} {a a2 : StepAcc α} {i : ℕ} (hstep : specStep ops m b a i = .ok a2) :
    a2.state = chunks b (((headInput ops m i a.state a.ind).map
      (fun sl => sl.map (fun row =>
        List.replicate (m.top_k_tokens_per_head.getD i 0) row))).flatten.flatten) ∧
    a2.ind = chunks b (((stepProbs ops m i a.state a.ind).map
      (fun sl => sl.map (fun row =>
        topkIdx (m.top_k_tokens_per_head.getD i 0) row))).flatten.flatten) ∧
    ∃ slice, recordSlice b m.vsize (map3 ops.exp (stepProbs ops m i a.state a.ind)) =
        some slice ∧ a2.recs = a.recs ++ [slice] := by
  rw [specStep] at hstep
  cases hrec : recordSlice b m.vsize (map3 ops.exp (stepProbs ops m i a.state a.ind)) with
  | none =>
    rw [hrec] at hstep
    exact Except.noConfusion hstep
  | some slice =>
    rw [hrec] at hstep
    have h2 := Except.ok.inj hstep
    rw [← h2]
    exact ⟨rfl, rfl, slice, rfl, rfl⟩

/-! Concrete instances used by the witnesses and counterexamples.  The
scalar operations over ℚ interpret the transcendental functions as
identities (and `x ** y` as `x`); every structural / shape fact
witnessed below is independent of that interpretation, since the only
data influenced by `ScalarOps` are the stored numeric values, never
the branch conditions on tensor shapes. -/

def qOps : ScalarOps ℚ := ⟨id, id, id, id, fun a _ => a, id⟩

/-- One-head layer norm with scale 1, shift 0 and eps 0 over ℚ. -/
def lnQ : MLPSpeculatorLayerNorm ℚ := ⟨("speculator.ln", 0), [1], [0], 0, true⟩

/-- Hand-built one-head speculator model over ℚ (hidden width 1,
vocabulary 2, all mixing weights 1). -/
def mQ1 : MLPSpeculatorModel ℚ :=
  { n_predict := 1, hidden_size := 1, tie_weights := false, scale_input := false,
    emb := [⟨("speculator.emb", 0), [[1], [0]]⟩],
    proj := [⟨("speculator.proj", 0), [[1]]⟩],
    head := [⟨("speculator.head", 0), [[1], [2]]⟩],
    ln := [lnQ], ln0 := none,
    state_weight := 1, emb_weight := 1, vsize := 2, inner_dim := 2,
    top_k_tokens_per_head := [1] }

/-- Two-head variant of `mQ1` whose (mutated) top-k list requests two
candidates from the first head. -/
def mC2Q : MLPSpeculatorModel ℚ :=
  { n_predict := 2, hidden_size := 1, tie_weights := false, scale_input := false,
    emb := [⟨("speculator.emb", 0), [[1], [0]]⟩, ⟨("speculator.emb", 1), [[1], [0]]⟩],
    proj := [⟨("speculator.proj", 0), [[1]]⟩, ⟨("speculator.proj", 1), [[1]]⟩],
    head := [⟨("speculator.head", 0), [[1], [2]]⟩, ⟨("speculator.head", 1), [[1], [2]]⟩],
    ln := [lnQ, lnQ], ln0 := none,
    state_weight := 1, emb_weight := 1, vsize := 2, inner_dim := 2,
    top_k_tokens_per_head := [2, 1] }

/-- Weight store over ℚ answering every matrix request with [[1]] and
every vector request with [1]. -/
def wQ : Weights ℚ := ⟨fun _ => [[1]], fun _ => [1]⟩

/-! Claim theorems. -/

/-- C7: for every N ≥ 1 the construction sets
`state_weight = 0.5 ^ (0.5 / N)` and
`emb_weight = sqrt(1 - state_weight ^ 2)`; consequently
`state_weight ^ 2 + emb_weight ^ 2 = 1` exactly (as exact real
arithmetic) and both weights lie strictly between 0 and 1. -/
theorem C7_mixing_weights (ops : ScalarOps ℝ)
    (hrpow : ops.rpow = fun x y => x ^ y) (hsqrt : ops.sqrt = Real.sqrt)
    (n : ℕ) (hn : 1 ≤ n) :
    stateWeightCalc ops n = (1 / 2 : ℝ) ^ ((1 / 2) / (n : ℝ)) ∧
    embWeightCalc ops n = Real.sqrt (1 - stateWeightCalc ops n ^ 2) ∧
    (stateWeightCalc ops n) ^ 2 + (embWeightCalc ops n) ^ 2 = 1 ∧
    0 < stateWeightCalc ops n ∧ stateWeightCalc ops n < 1 ∧
    0 < embWeightCalc ops n ∧ embWeightCalc ops n < 1 ∧
    (∀ (config : Config) (stem : String) (weights : Weights ℝ) (m : MLPSpeculatorModel ℝ),
      MLPSpeculatorModel.init ops config n stem weights = .ok m →
      m.state_weight = stateWeightCalc ops n ∧ m.emb_weight = embWeightCalc ops n) := by
  have hinit : ∀ (config : Config) (stem : String) (weights : Weights ℝ)
      (m : MLPSpeculatorModel ℝ),
      MLPSpeculatorModel.init ops config n stem weights = .ok m →
      m.state_weight = stateWeightCalc ops n ∧ m.emb_weight = embWeightCalc ops n := by
    intro config stem weights m hm
    rw [MLPSpeculatorModel.init] at hm
    split at hm
    · exact Except.noConfusion hm
    · have h2 := Except.ok.inj hm
      rw [← h2]
      exact ⟨rfl, rfl⟩
  have hsw_eq : stateWeightCalc ops n = (1 / 2 : ℝ) ^ ((1 / 2) / (n : ℝ)) := by
    rw [stateWeightCalc, hrpow]
  have hew_eq : embWeightCalc ops n = Real.sqrt (1 - stateWeightCalc ops n ^ 2) := by
    rw [embWeightCalc, hsqrt]
  have hnpos : (0 : ℝ) < (n : ℝ) := by
    have h1 : (1 : ℝ) ≤ (n : ℝ) := by exact_mod_cast hn
    linarith
  have hy : (0 : ℝ) < (1 / 2) / (n : ℝ) := by positivity
  have hsw0 : 0 < stateWeightCalc ops n := by
    rw [hsw_eq]
    exact Real.rpow_pos_of_pos (by norm_num) _
  have hsw1 : stateWeightCalc ops n < 1 := by
    rw [hsw_eq]
    exact Real.rpow_lt_one (by norm_num) (by norm_num) hy
  have hsq : (stateWeightCalc ops n) ^ 2 < 1 := by nlinarith
  have hnn : (0 : ℝ) ≤ 1 - (stateWeightCalc ops n) ^ 2 := by linarith
  have hsqrt2 : (embWeightCalc ops n) ^ 2 = 1 - (stateWeightCalc ops n) ^ 2 := by
    rw [hew_eq]
    exact Real.sq_sqrt hnn
  refine ⟨hsw_eq, hew_eq, by linarith, hsw0, hsw1, ?_, ?_, hinit⟩
  · rw [hew_eq]
    exact Real.sqrt_pos.mpr (by linarith)
  · rw [hew_eq]
    have h2 : Real.sqrt (1 - (stateWeightCalc ops n) ^ 2) < Real.sqrt 1 :=
      Real.sqrt_lt_sqrt hnn (by nlinarith)
    rwa [Real.sqrt_one] at h2

/-- Scalar operations over ℝ with the real square root and real float
exponentiation; exp, log, rsqrt and GELU are irrelevant to C7 and left
as identities. -/
noncomputable def c7ops : ScalarOps ℝ := ⟨id, id, Real.sqrt, id, fun x y => x ^ y, id⟩

theorem C7_mixing_weights_witness :
    (stateWeightCalc c7ops 3) ^ 2 + (embWeightCalc c7ops 3) ^ 2 = 1 ∧
    0 < stateWeightCalc c7ops 3 ∧ stateWeightCalc c7ops 3 < 1 ∧
    0 < embWeightCalc c7ops 3 ∧ embWeightCalc c7ops 3 < 1 := by
  obtain ⟨_, _, h1, h2, h3, h4, h5, _⟩ := C7_mixing_weights c7ops rfl rfl 3 (by norm_num)
  exact ⟨h1, h2, h3, h4, h5⟩

theorem getD_zipWith_of_lt {β2 : Type} {f : γ → δ → β2} {l1 : List γ} {l2 : List δ} {j : ℕ}
    (h1 : j < l1.length) (h2 : j < l2.length) (d : β2) (d1 : γ) (d2 : δ) :
    (List.zipWith f l1 l2).getD j d = f (l1.getD j d1) (l2.getD j d2) := by
  rw [List.getD_eq_getElem?_getD, List.getD_eq_getElem?_getD, List.getD_eq_getElem?_getD,
    List.getElem?_zipWith, List.getElem?_eq_getElem h1, List.getElem?_eq_getElem h2]
  rfl

/-- C8: for every input vector x (one last-axis slice of any finite
input tensor) the Normalizer returns
`x * rsqrt(mean(x ^ 2 over the last axis) + eps)` and then, exactly
when the affine flag is set, multiplies by the learned scale and adds
the learned shift elementwise; it preserves the length of every slice
(and the row count of a batched input), and it is a pure total
function of its input and parameters by construction. -/
theorem C8_normalizer [LinearOrderedField α] (ops : ScalarOps α)
    (p : MLPSpeculatorLayerNorm α) (x : List α)
    (haff : p.elementwise_scale_and_shift = true →
      p.weight.length = x.length ∧ p.bias.length = x.length) :
    (p.forward1 ops x).length = x.length ∧
    (∀ j, j < x.length →
      (p.forward1 ops x).getD j 0 =
        (if p.elementwise_scale_and_shift then
          p.weight.getD j 0 *
            (x.getD j 0 * ops.rsqrt ((x.map (fun a => a ^ 2)).sum / (x.length : α) + p.eps)) +
            p.bias.getD j 0
        else
          x.getD j 0 *
            ops.rsqrt ((x.map (fun a => a ^ 2)).sum / (x.length : α) + p.eps))) ∧
    (∀ X : List (List α), (lnForward2 ops p X).length = X.length) := by
  cases haffb : p.elementwise_scale_and_shift with
  | false =>
    refine ⟨?_, ?_, ?_⟩
    · simp [MLPSpeculatorLayerNorm.forward1, haffb]
    · intro j hj
      rw [if_neg (by exact Bool.false_ne_true)]
      rw [MLPSpeculatorLayerNorm.forward1]
      simp only [haffb, Bool.false_eq_true, if_false, ite_false]
      exact getD_map_of_lt hj 0 0
    · intro X
      simp [lnForward2]
  | true =>
    obtain ⟨hw, hb⟩ := haff haffb
    have hxf : (x.map (fun a =>
        a * ops.rsqrt ((x.map (fun a => a ^ 2)).sum / (x.length : α) + p.eps))).length =
        x.length := by simp
    refine ⟨?_, ?_, ?_⟩
    · rw [MLPSpeculatorLayerNorm.forward1]
      simp only [haffb, if_true, ite_true]
      simp [hw, hb, hxf]
    · intro j hj
      rw [if_pos (by rfl)]
      rw [MLPSpeculatorLayerNorm.forward1]
      simp only [haffb, if_true, ite_true]
      rw [getD_zipWith_of_lt (by simp [hw, hxf]; omega) (by omega : j < p.bias.length) 0 0 0,
        getD_zipWith_of_lt (by omega : j < p.weight.length) (by rw [hxf]; exact hj) 0 0 0,
        getD_map_of_lt hj 0 0]
    · intro X
      simp [lnForward2]

theorem C8_normalizer_witness :
    ((lnQ.forward1 qOps [2]).length = 1 ∧
      (lnQ.forward1 qOps [2]).getD 0 0 =
        1 * ((2 : ℚ) * qOps.rsqrt (((4 : ℚ)) / 1 + 0)) + 0) ∧
    ((⟨("ln0", 0), [], [], 0, false⟩ : MLPSpeculatorLayerNorm ℚ).forward1 qOps [3]).getD 0 0 =
      (3 : ℚ) * qOps.rsqrt ((9 : ℚ) / 1 + 0) := by
  constructor
  · obtain ⟨h1, h2, _⟩ := C8_normalizer qOps lnQ [2] (fun _ => ⟨rfl, rfl⟩)
    refine ⟨h1, ?_⟩
    have h3 := h2 0 (by norm_num)
    rw [h3]
    norm_num [lnQ]
  · obtain ⟨_, h2, _⟩ :=
      C8_normalizer qOps (⟨("ln0", 0), [], [], 0, false⟩ : MLPSpeculatorLayerNorm ℚ) [3]
        (fun hc => Bool.noConfusion hc)
    have h3 := h2 0 (by norm_num)
    rw [h3]
    norm_num

/-- C3: the head wrapper always computes the LM-head logits; with more
than 128 input rows it returns `(logits, absent)` without invoking the
speculator, and with at most 128 rows (including exactly 128) it
derives per-row token ids as the first arg-max vocabulary index of the
logits and invokes the speculator driver on (hidden state, those
ids). -/
theorem C3_bypass_threshold [LinearOrderedField α] (ops : ScalarOps α)
    (hd : MLPSpeculatorHead α) (input : List (List α)) :
    (128 < input.length →
      hd.forward ops input = .ok (linear2 hd.lm_head input, none)) ∧
    (input.length ≤ 128 →
      hd.forward ops input =
        (hd.mlp_speculator.forward ops input
          ((linear2 hd.lm_head input).map argmaxIdx)).map
          (fun sp => (linear2 hd.lm_head input, some sp)) ∧
      (∀ row ∈ linear2 hd.lm_head input, row ≠ [] →
        argmaxIdx row < row.length ∧
        ∀ j, j < row.length →
          row.getD j 0 ≤ row.getD (argmaxIdx row) 0 ∧
            (row.getD j 0 = row.getD (argmaxIdx row) 0 → argmaxIdx row ≤ j))) := by
  constructor
  · intro h128
    rw [MLPSpeculatorHead.forward, if_pos h128]
  · intro h128
    constructor
    · rw [MLPSpeculatorHead.forward, if_neg (not_lt.mpr h128)]
    · intro row _ hrow
      refine ⟨argmaxIdx_lt hrow, ?_⟩
      intro j hj
      exact argmaxIdx_max hrow hj

/-- Head wrapper over ℚ with a one-column LM head over vocabulary 1
and the one-head speculator `mQ1`. -/
def hdQ : MLPSpeculatorHead ℚ := ⟨[[1]], mQ1⟩

theorem C3_bypass_threshold_witness :
    (MLPSpeculatorHead.forward qOps hdQ (List.replicate 129 [(1 : ℚ)]) =
      .ok (linear2 hdQ.lm_head (List.replicate 129 [(1 : ℚ)]), none)) ∧
    (MLPSpeculatorHead.forward qOps hdQ (List.replicate 128 [(1 : ℚ)]) =
      (hdQ.mlp_speculator.forward qOps (List.replicate 128 [(1 : ℚ)])
        ((linear2 hdQ.lm_head (List.replicate 128 [(1 : ℚ)])).map argmaxIdx)).map
        (fun sp => (linear2 hdQ.lm_head (List.replicate 128 [(1 : ℚ)]), some sp))) := by
  constructor
  · exact (C3_bypass_threshold qOps hdQ (List.replicate 129 [(1 : ℚ)])).1 (by simp)
  · exact ((C3_bypass_threshold qOps hdQ (List.replicate 128 [(1 : ℚ)])).2 (by simp)).1

/-- C4 (amended): the forward pass re-checks the top-k list length
against `n_predict` and fails the assert before any head computation
when they differ (the list is an attribute that may be mutated between
construction and a call); construction, however, takes no top-k list
at all — it unconditionally initializes the attribute to `[1] *
n_predict`, so no construction-time validation exists or can fail. -/
theorem C4_topk_length_checks [LinearOrderedField α] (ops : ScalarOps α) :
    (∀ (m : MLPSpeculatorModel α) (h2 : List (List α)) (ids : List ℕ),
      m.top_k_tokens_per_head.length ≠ m.n_predict →
      m.forward ops h2 ids = .error .topkLen) ∧
    (∀ (config : Config) (n : ℕ) (stem : String) (weights : Weights α)
      (m : MLPSpeculatorModel α),
      MLPSpeculatorModel.init ops config n stem weights = .ok m →
      m.top_k_tokens_per_head = List.replicate n 1) := by
  constructor
  · intro m h2 ids hne
    rw [MLPSpeculatorModel.forward, if_neg hne]
  · intro config n stem weights m hm
    rw [MLPSpeculatorModel.init] at hm
    split at hm
    · exact Except.noConfusion hm
    · have h2 := Except.ok.inj hm
      rw [← h2]

/-- Untied one-head configuration over ℚ. -/
def cfg4 : Config := ⟨4, 2, ⟨false, false, 2⟩⟩

/-- The model `MLPSpeculatorModel.init qOps cfg4 1 "speculator" wQ`
builds, written out field by field. -/
def mInitEx : MLPSpeculatorModel ℚ :=
  { n_predict := 1, hidden_size := 4, tie_weights := false, scale_input := false,
    emb := [TensorParallelEmbedding.load wQ ("speculator" ++ ".emb") 0],
    proj := [FastLinear.load wQ ("speculator" ++ ".proj") 0],
    head := [FastLinear.load wQ ("speculator" ++ ".head") 0],
    ln := [MLPSpeculatorLayerNorm.load wQ ("speculator" ++ ".ln") 0], ln0 := none,
    state_weight := stateWeightCalc qOps 1, emb_weight := embWeightCalc qOps 1,
    vsize := 2, inner_dim := 2,
    top_k_tokens_per_head := List.replicate 1 1 }

/-- C4 counterexample to the claim as stated: construction takes no
top-k list and cannot fail with a configuration error — at a concrete
configuration it plainly succeeds and hard-codes the all-ones top-k
list of length `n_predict`, so there is no construction-time top-k
validation to speak of (the only length check lives in `forward`). -/
theorem C4_counterexample :
    MLPSpeculatorModel.init qOps cfg4 1 "speculator" wQ = .ok mInitEx ∧
    mInitEx.top_k_tokens_per_head = List.replicate 1 1 := by
  constructor
  · rw [MLPSpeculatorModel.init]
    rfl
  · rfl

theorem C4_topk_length_checks_witness :
    ({ mQ1 with top_k_tokens_per_head := ([] : List ℕ) } :
        MLPSpeculatorModel ℚ).forward qOps [[1]] [0] = .error .topkLen ∧
    mInitEx.top_k_tokens_per_head = List.replicate 1 1 := by
  constructor
  · exact (C4_topk_length_checks qOps).1 _ [[1]] [0] (by decide)
  · refine (C4_topk_length_checks qOps).2 cfg4 1 "speculator" wQ mInitEx ?_
    rw [MLPSpeculatorModel.init]
    rfl

/-- Configuration with `scale_input` set. -/
def cfgScale : Config := ⟨4, 2, ⟨false, true, 2⟩⟩

/-- Non-affine layer norm over ℚ (what line 126 of the source intends
to build for `ln0`). -/
def lnNoAff : MLPSpeculatorLayerNorm ℚ := ⟨("ln0", 0), [], [], 0, false⟩

/-- Variant of `mQ1` with `scale_input` set and an `ln0` present — the
state the intended (spec-described) construction would produce, which
the forward code of lines 148-149 consumes. -/
def mScaleQ : MLPSpeculatorModel ℚ :=
  { mQ1 with scale_input := true, ln0 := some lnNoAff }

/-- C5 (code bug): constructing with `scale_input = true` raises a
`TypeError` instead of building the extra non-affine normalizer,
because line 126 calls `MLPSpeculatorLayerNorm(self.hidden_size,
elementwise_scale_and_shift=False)` and thereby omits the class's
required `config` and `weights` positional arguments — contradicting
the forward pass (lines 148-149), which expects `self.ln0` to exist.
The remaining conjuncts record what the forward code does around the
broken path: with `scale_input = false` the hidden state enters the
loop unchanged (as the claim states), while a model that did carry
`scale_input = true` with an `ln0` would compute
`ln0(state) / SQRT2` once before the loop. -/
theorem C5_scale_input_code_bug :
    MLPSpeculatorModel.init qOps cfgScale 1 "speculator" wQ = .error .lnMissingArgs ∧
    scaleState qOps mQ1 [[1]] = [[1]] ∧
    runAcc qOps mQ1 [[1]] [0] 0 = .ok ⟨[[[1]]], [[0]], []⟩ ∧
    scaleState qOps mScaleQ [[1]] =
      (lnForward2 qOps lnNoAff [[1]]).map (fun row => row.map (fun a => a / SQRT2 qOps)) := by
  refine ⟨?_, rfl, rfl, rfl⟩
  rw [MLPSpeculatorModel.init]
  rfl

/-- C6: with `tie_weights` the construction yields exactly 2 distinct
state-projection parameter objects (the first used only at step 0, the
second shared by steps 1..N-1) and exactly one embedding table, one
output projection and one normalizer, each aliased by all N steps;
without it, N fully independent modules of each kind; and the forward
algorithm does not depend on which construction path was taken. -/
theorem C6_weight_tying [LinearOrderedField α] (ops : ScalarOps α) (config : Config) (n : ℕ)
    (stem : String) (weights : Weights α) (m : MLPSpeculatorModel α)
    (hm : MLPSpeculatorModel.init ops config n stem weights = .ok m) :
    (config.speculator_config.tie_weights = true →
      m.emb = List.replicate n (TensorParallelEmbedding.load weights (stem ++ ".emb") 0) ∧
      m.proj = FastLinear.load weights (stem ++ ".proj") 0 ::
        List.replicate (n - 1) (FastLinear.load weights (stem ++ ".proj") 1) ∧
      m.head = List.replicate n (FastLinear.load weights (stem ++ ".head") 0) ∧
      m.ln = List.replicate n (MLPSpeculatorLayerNorm.load weights (stem ++ ".ln") 0) ∧
      FastLinear.load weights (stem ++ ".proj") 0 ≠ FastLinear.load weights (stem ++ ".proj") 1 ∧
      (2 ≤ n → m.proj.toFinset.card = 2) ∧
      (1 ≤ n → m.emb.toFinset.card = 1 ∧ m.head.toFinset.card = 1 ∧
        m.ln.toFinset.card = 1)) ∧
    (config.speculator_config.tie_weights = false →
      m.emb = (List.range n).map (TensorParallelEmbedding.load weights (stem ++ ".emb")) ∧
      m.proj = (List.range n).map (FastLinear.load weights (stem ++ ".proj")) ∧
      m.head = (List.range n).map (FastLinear.load weights (stem ++ ".head")) ∧
      m.ln = (List.range n).map (MLPSpeculatorLayerNorm.load weights (stem ++ ".ln")) ∧
      m.emb.toFinset.card = n ∧ m.proj.toFinset.card = n ∧ m.head.toFinset.card = n ∧
      m.ln.toFinset.card = n) ∧
    (∀ (b2 : Bool) (h2 : List (List α)) (ids : List ℕ),
      MLPSpeculatorModel.forward ops { m with tie_weights := b2 } h2 ids =
        MLPSpeculatorModel.forward ops m h2 ids) := by
  rw [MLPSpeculatorModel.init] at hm
  split at hm
  · exact Except.noConfusion hm
  · have hmeq := Except.ok.inj hm
    subst hmeq
    refine ⟨?_, ?_, ?_⟩
    · intro htie
      simp only [htie, if_true, ite_true]
      have hne : FastLinear.load weights (stem ++ ".proj") 0 ≠
          FastLinear.load weights (stem ++ ".proj") 1 := by
        intro hcon
        have := congrArg (fun p => p.key.2) hcon
        simp [FastLinear.load] at this
      refine ⟨trivial, trivial, trivial, trivial, hne, ?_, ?_⟩
      · intro hn2
        rw [List.toFinset_cons, List.toFinset_replicate_of_ne_zero (by omega),
          Finset.card_insert_of_not_mem (by simp [hne])]
        rfl
      · intro hn1
        rw [List.toFinset_replicate_of_ne_zero (by omega),
          List.toFinset_replicate_of_ne_zero (by omega),
          List.toFinset_replicate_of_ne_zero (by omega)]
        exact ⟨rfl, rfl, rfl⟩
    · intro htie
      simp only [htie, Bool.false_eq_true, if_false, ite_false]
      have hcard : ∀ (β : Type) (_ : DecidableEq β) (f : ℕ → β),
          (∀ x y : ℕ, f x = f y → x = y) → ((List.range n).map f).toFinset.card = n := by
        intro β hdec f hinj
        rw [List.toFinset_card_of_nodup
          (List.Nodup.map_on (fun x _ y _ h => hinj x y h) (List.nodup_range n))]
        simp
      refine ⟨trivial, trivial, trivial, trivial, ?_, ?_, ?_, ?_⟩
      · refine hcard _ inferInstance _ ?_
        intro x y hxy
        have := congrArg (fun p => p.key.2) hxy
        simpa [TensorParallelEmbedding.load] using this
      · refine hcard _ inferInstance _ ?_
        intro x y hxy
        have := congrArg (fun p => p.key.2) hxy
        simpa [FastLinear.load] using this
      · refine hcard _ inferInstance _ ?_
        intro x y hxy
        have := congrArg (fun p => p.key.2) hxy
        simpa [FastLinear.load] using this
      · refine hcard _ inferInstance _ ?_
        intro x y hxy
        have := congrArg (fun p => p.ln_key.2) hxy
        simpa [MLPSpeculatorLayerNorm.load] using this
    · intro b2 h2 ids
      rfl

/-- Tied three-head configuration over ℚ. -/
def cfgT : Config := ⟨4, 2, ⟨true, false, 2⟩⟩

/-- The model `MLPSpeculatorModel.init qOps cfgT 3 "speculator" wQ`
builds: one embedding / head / norm shared by the three steps, and two
projections with the second shared by steps 1 and 2. -/
def mTie3 : MLPSpeculatorModel ℚ :=
  { n_predict := 3, hidden_size := 4, tie_weights := true, scale_input := false,
    emb := List.replicate 3 (TensorParallelEmbedding.load wQ ("speculator" ++ ".emb") 0),
    proj := FastLinear.load wQ ("speculator" ++ ".proj") 0 ::
      List.replicate 2 (FastLinear.load wQ ("speculator" ++ ".proj") 1),
    head := List.replicate 3 (FastLinear.load wQ ("speculator" ++ ".head") 0),
    ln := List.replicate 3 (MLPSpeculatorLayerNorm.load wQ ("speculator" ++ ".ln") 0),
    ln0 := none,
    state_weight := stateWeightCalc qOps 3, emb_weight := embWeightCalc qOps 3,
    vsize := 2, inner_dim := 2,
    top_k_tokens_per_head := List.replicate 3 1 }

theorem C6_weight_tying_witness :
    mTie3.proj.toFinset.card = 2 ∧ mTie3.emb.toFinset.card = 1 ∧
    mTie3.head.toFinset.card = 1 ∧ mTie3.ln.toFinset.card = 1 ∧
    mInitEx.proj.toFinset.card = 1 := by
  have hT := C6_weight_tying qOps cfgT 3 "speculator" wQ mTie3
    (by rw [MLPSpeculatorModel.init]; rfl)
  have hF := C6_weight_tying qOps cfg4 1 "speculator" wQ mInitEx
    (by rw [MLPSpeculatorModel.init]; rfl)
  obtain ⟨h1, _, _⟩ := hT
  obtain ⟨he, hp, hh, hl, _, h2c, h1c⟩ := h1 rfl
  obtain ⟨_, hF2, _⟩ := hF
  obtain ⟨_, _, _, _, _, hfp, _, _⟩ := hF2 rfl
  exact ⟨h2c (by norm_num), (h1c (by norm_num)).1, (h1c (by norm_num)).2.1,
    (h1c (by norm_num)).2.2, hfp⟩

/-- C9: if during speculator loading the same parameter key is found
in two files with different names, the routing loop raises (before any
model is built — the loop precedes the `MLPSpeculatorModel`
construction in `MLPSpeculatorHead.load`); if every key is claimed by
at most one distinct filename (the same file re-claiming its own key
is no conflict), the loop completes and every key is routed to its
file. -/
theorem C9_routing_conflicts (files : List (String × List String)) :
    (∀ f1 ∈ files, ∀ f2 ∈ files, ∀ k, k ∈ f1.2 → k ∈ f2.2 → f1.1 ≠ f2.1 →
      ∃ e, loadRouting files [] = .error e) ∧
    ((∀ f1 ∈ files, ∀ f2 ∈ files, ∀ k, k ∈ f1.2 → k ∈ f2.2 → f1.1 = f2.1) →
      ∃ r, loadRouting files [] = .ok r ∧
        ∀ file ∈ files, ∀ k ∈ file.2, findRoute k r = some file.1) := by
  constructor
  · intro f1 hf1 f2 hf2 k hk1 hk2 hne
    cases hrun : loadRouting files [] with
    | error e => exact ⟨e, rfl⟩
    | ok r =>
      obtain ⟨_, hroutes⟩ := loadRouting_ok_facts files [] r hrun
      have h1 := hroutes f1 hf1 k hk1
      have h2 := hroutes f2 hf2 k hk2
      rw [h1] at h2
      exact absurd (Option.some.inj h2) hne
  · intro hcons
    obtain ⟨r, hr⟩ := loadRouting_ok_exists files []
      (fun file _ k _ f hf => Option.noConfusion hf) hcons
    obtain ⟨_, hroutes⟩ := loadRouting_ok_facts files [] r hr
    exact ⟨r, hr, hroutes⟩

theorem C9_routing_conflicts_witness :
    (∃ e, loadRouting [("f1", ["a", "b"]), ("f2", ["c", "a"])] [] = .error e) ∧
    (∃ r, loadRouting [("f1", ["a", "b"]), ("f2", ["c"]), ("f1", ["a"])] [] = .ok r ∧
      ∀ file ∈ [("f1", ["a", "b"]), ("f2", ["c"]), ("f1", ["a"])], ∀ k ∈ file.2,
        findRoute k r = some file.1) := by
  constructor
  · exact (C9_routing_conflicts [("f1", ["a", "b"]), ("f2", ["c", "a"])]).1
      ("f1", ["a", "b"]) (by decide) ("f2", ["c", "a"]) (by decide) "a" (by decide) (by decide)
      (by decide)
  · exact (C9_routing_conflicts [("f1", ["a", "b"]), ("f2", ["c"]), ("f1", ["a"])]).2
      (by decide)

/-- C10: whenever a loop iteration succeeds, the candidate ids it
propagates to the next step are the per-row `topk` indices of that
step's log-softmax distribution, re-flattened by `view(-1, b)`; and
the per-row selection `topkIdx k v` consists of exactly `k` distinct
indices, listed in descending order of probability, every one of which
dominates every unselected index. -/
theorem C10_topk_selection [LinearOrderedField α] (ops : ScalarOps α)
    (m : MLPSpeculatorModel α) (b : ℕ) (a a2 : StepAcc α) (i : ℕ)
    (hstep : specStep ops m b a i = .ok a2) :
    a2.ind = chunks b (((stepProbs ops m i a.state a.ind).map
      (fun sl => sl.map (fun row =>
        topkIdx (m.top_k_tokens_per_head.getD i 0) row))).flatten.flatten) ∧
    (∀ v : List α, ∀ k, k ≤ v.length →
      (topkIdx k v).length = k ∧ (topkIdx k v).Nodup ∧
      List.Sorted (fun x y => y ≤ x) ((topkIdx k v).map (fun idx => v.getD idx 0)) ∧
      (∀ j, j < v.length → j ∉ topkIdx k v → ∀ s ∈ topkIdx k v,
        v.getD j 0 ≤ v.getD s 0)) := by
  refine ⟨(specStep_ok_inv hstep).2.1, ?_⟩
  intro v k hk
  exact ⟨topkIdx_length hk, topkIdx_nodup k v, topkIdx_sorted_vals k v,
    fun j hj hjn s hs => topkIdx_dominates hj hjn hs⟩

/-- Loop accumulator of `mQ1` before step 0 on hidden state [[1]] and
token id 0. -/
def accQ0 : StepAcc ℚ := ⟨[[[1]]], [[0]], []⟩

/-- Loop accumulator of `mQ1` after step 0, written as the step's
reshape expressions. -/
def accQ1 : StepAcc ℚ :=
  ⟨chunks 1 (((headInput qOps mQ1 0 accQ0.state accQ0.ind).map
      (fun sl => sl.map (fun row => List.replicate 1 row))).flatten.flatten),
   chunks 1 (((stepProbs qOps mQ1 0 accQ0.state accQ0.ind).map
      (fun sl => sl.map (fun row => topkIdx 1 row))).flatten.flatten),
   [recSlice qOps mQ1 0 accQ0]⟩

theorem accQ0_wf : accWF 1 accQ0 := by
  refine ⟨rfl, ?_, rfl, ?_⟩
  · intro sl hsl
    have h1 : sl = [[1]] := by simpa [accQ0] using hsl
    rw [h1]
    rfl
  · intro r hr
    have h1 : r = [0] := by simpa [accQ0] using hr
    rw [h1]
    rfl

theorem specStepQ : specStep qOps mQ1 1 accQ0 0 = .ok accQ1 :=
  (specStep_ok qOps mQ1 0 accQ0_wf rfl).1

theorem C10_topk_selection_witness :
    accQ1.ind = chunks 1 (((stepProbs qOps mQ1 0 accQ0.state accQ0.ind).map
      (fun sl => sl.map (fun row => topkIdx 1 row))).flatten.flatten) ∧
    (topkIdx 2 ([3, 7, 7, 1] : List ℚ)).length = 2 ∧
    (topkIdx 2 ([3, 7, 7, 1] : List ℚ)).Nodup ∧
    List.Sorted (fun x y => y ≤ x)
      ((topkIdx 2 ([3, 7, 7, 1] : List ℚ)).map
        (fun idx => ([3, 7, 7, 1] : List ℚ).getD idx 0)) := by
  have h := C10_topk_selection qOps mQ1 1 accQ0 accQ1 0 specStepQ
  have h2 := h.2 ([3, 7, 7, 1] : List ℚ) 2 (by norm_num)
  exact ⟨h.1, h2.1, h2.2.1, h2.2.2.1⟩

/-- C1: in every forward call of the driver, step 0 consumes the
possibly-rescaled hidden state (one candidate slice) and the initial
token ids reshaped to a leading candidate count of 1; the state fed to
the output projection at step i is
`GELU(ln[i](proj[i](state) * state_weight + z))` with
`z = emb[i](ind) * (emb_weight * sqrt(inner_dim / 2))` applied to the
previous step's state and candidate ids; and the state consumed by the
next step is its top-k expansion/reshape. -/
theorem C1_state_recurrence [LinearOrderedField α] (ops : ScalarOps α)
    (m : MLPSpeculatorModel α) (h2 : List (List α)) (ids : List ℕ) (i : ℕ)
    (a a2 : StepAcc α) (ha : runAcc ops m h2 ids i = .ok a)
    (ha2 : runAcc ops m h2 ids (i + 1) = .ok a2) :
    runAcc ops m h2 ids 0 = .ok ⟨[scaleState ops m h2], [ids], []⟩ ∧
    specStep ops m h2.length a i = .ok a2 ∧
    headInput ops m i a.state a.ind =
      map3 ops.gelu (lnForward3 ops (m.ln.getD i emptyLN)
        (add3 (map3 (fun c => c * m.state_weight)
            (linear3 (m.proj.getD i emptyLin).w a.state))
          (map3 (fun c => c * (m.emb_weight * ops.sqrt ((m.inner_dim : α) / 2)))
            (embedLookup (m.emb.getD i emptyEmb).table a.ind)))) ∧
    a2.state = chunks h2.length (((headInput ops m i a.state a.ind).map
      (fun sl => sl.map (fun row =>
        List.replicate (m.top_k_tokens_per_head.getD i 0) row))).flatten.flatten) := by
  have hstep : specStep ops m h2.length a i = .ok a2 := by
    rw [runAcc_succ, ha] at ha2
    exact ha2
  exact ⟨runAcc_zero ops m h2 ids, hstep, rfl, (specStep_ok_inv hstep).1⟩

theorem C1_state_recurrence_witness :
    runAcc qOps mQ1 [[1]] [0] 0 = .ok accQ0 ∧
    runAcc qOps mQ1 [[1]] [0] 1 = .ok accQ1 ∧
    headInput qOps mQ1 0 accQ0.state accQ0.ind =
      map3 qOps.gelu (lnForward3 qOps (mQ1.ln.getD 0 emptyLN)
        (add3 (map3 (fun c => c * mQ1.state_weight)
            (linear3 (mQ1.proj.getD 0 emptyLin).w accQ0.state))
          (map3 (fun c => c * (mQ1.emb_weight * qOps.sqrt ((mQ1.inner_dim : ℚ) / 2)))
            (embedLookup (mQ1.emb.getD 0 emptyEmb).table accQ0.ind)))) ∧
    accQ1.state = chunks 1 (((headInput qOps mQ1 0 accQ0.state accQ0.ind).map
      (fun sl => sl.map (fun row => List.replicate 1 row))).flatten.flatten) := by
  have hrun0 : runAcc qOps mQ1 [[1]] [0] 0 = .ok accQ0 := rfl
  have hrun1 : runAcc qOps mQ1 [[1]] [0] 1 = .ok accQ1 := by
    rw [runAcc_succ, hrun0]
    exact specStepQ
  have h := C1_state_recurrence qOps mQ1 [[1]] [0] 0 accQ0 accQ1 hrun0 hrun1
  exact ⟨hrun0, hrun1, h.2.2.1, h.2.2.2⟩

theorem length_headInput [LinearOrderedField α] (ops : ScalarOps α) (m : MLPSpeculatorModel α)
    (i : ℕ) (st : List (List (List α))) (ind : List (List ℕ)) :
    (headInput ops m i st ind).length = min st.length ind.length := by
  simp [headInput, map3, add3, linear3, embedLookup, lnForward3]

theorem length_stepProbs [LinearOrderedField α] (ops : ScalarOps α) (m : MLPSpeculatorModel α)
    (i : ℕ) (st : List (List (List α))) (ind : List (List ℕ)) :
    (stepProbs ops m i st ind).length = min st.length ind.length := by
  simp [stepProbs, logSoftmax3, linear3, length_headInput]

theorem chunks_one_two (x y : γ) : chunks 1 [x, y] = [[x], [y]] := by
  rw [chunks_cons_eq one_pos _ (by simp)]
  have h2 : chunks 1 ([x, y].drop 1) = [[y]] := chunks_self one_pos [y] rfl
  rw [h2]
  rfl

/-- Two-head loop accumulator of `mC2Q` after step 0, as the reshape
expressions the step produces: candidate count 2. -/
def accC1 : StepAcc ℚ :=
  ⟨chunks 1 (((headInput qOps mC2Q 0 accQ0.state accQ0.ind).map
      (fun sl => sl.map (fun row => List.replicate 2 row))).flatten.flatten),
   chunks 1 (((stepProbs qOps mC2Q 0 accQ0.state accQ0.ind).map
      (fun sl => sl.map (fun row => topkIdx 2 row))).flatten.flatten),
   [recSlice qOps mC2Q 0 accQ0]⟩

theorem accC1_state_len : accC1.state.length = 2 := by
  obtain ⟨st0, hst0, hst0len⟩ := headInput_shape qOps mC2Q 0 accQ0_wf
  obtain ⟨v, hv⟩ := List.length_eq_one.mp hst0len
  show (chunks 1 (((headInput qOps mC2Q 0 accQ0.state accQ0.ind).map
      (fun sl => sl.map (fun row => List.replicate 2 row))).flatten.flatten)).length = 2
  rw [hst0, hv]
  have hflat : (([[v]].map (fun sl => sl.map (fun row => List.replicate 2 row))).flatten.flatten)
      = [v, v] := by
    simp [List.replicate]
  rw [hflat, chunks_one_two]
  rfl

theorem accC1_ind_len : accC1.ind.length = 2 := by
  obtain ⟨st0, hst0, hst0len, hps⟩ := stepProbs_shape qOps mC2Q 0 accQ0_wf
  obtain ⟨v, hv⟩ := List.length_eq_one.mp hst0len
  show (chunks 1 (((stepProbs qOps mC2Q 0 accQ0.state accQ0.ind).map
      (fun sl => sl.map (fun row => topkIdx 2 row))).flatten.flatten)).length = 2
  have hrowlen : (logSoftmax1 qOps (matvec (mC2Q.head.getD 0 emptyLin).w v)).length = 2 := by
    rw [length_logSoftmax1, length_matvec]
    rfl
  have hklen : (topkIdx 2 (logSoftmax1 qOps (matvec (mC2Q.head.getD 0 emptyLin).w v))).length
      = 2 := topkIdx_length (by rw [hrowlen])
  obtain ⟨i1, i2, hi12⟩ := List.length_eq_two.mp hklen
  rw [hps, hv]
  have hflat : ((([([v] : List (List ℚ)).map
      (fun row => logSoftmax1 qOps (matvec (mC2Q.head.getD 0 emptyLin).w row))].map
        (fun sl => sl.map (fun row => topkIdx 2 row))).flatten.flatten)) =
      topkIdx 2 (logSoftmax1 qOps (matvec (mC2Q.head.getD 0 emptyLin).w v)) := by
    simp
  rw [hflat, hi12, chunks_one_two]
  rfl

/-- C2 counterexample to the claim as stated: with a top-k value
greater than 1 at a non-final head, the forward call fails with the
broadcast error at the next head's `all_probs[:, i]` assignment (the
candidate dimension is now 2), instead of returning any
AllProbabilities tensor.  The failure is a pure shape consequence: no
branch on the road to it depends on stored numeric values, so the ℚ
instantiation witnesses the behaviour of the real-valued code. -/
theorem C2_counterexample :
    mC2Q.top_k_tokens_per_head = [2, 1] ∧
    mC2Q.top_k_tokens_per_head.length = mC2Q.n_predict ∧
    MLPSpeculatorModel.forward qOps mC2Q [[1]] [0] = .error .recordShape := by
  refine ⟨rfl, rfl, ?_⟩
  have hrun1 : runAcc qOps mC2Q [[1]] [0] 1 = .ok accC1 := by
    rw [runAcc_succ]
    have h0 : runAcc qOps mC2Q [[1]] [0] 0 = .ok accQ0 := rfl
    rw [h0]
    exact (specStep_ok qOps mC2Q 0 accQ0_wf rfl).1
  have hrec : recordSlice 1 mC2Q.vsize
      (map3 qOps.exp (stepProbs qOps mC2Q 1 accC1.state accC1.ind)) = none := by
    rw [recordSlice, if_neg]
    intro hcon
    have h1 := hcon.1
    have h2 : (map3 qOps.exp (stepProbs qOps mC2Q 1 accC1.state accC1.ind)).length = 2 := by
      simp [map3, length_stepProbs, accC1_state_len, accC1_ind_len]
    omega
  have hstep1 : specStep qOps mC2Q 1 accC1 1 = .error .recordShape := by
    rw [specStep, hrec]
  have hrun2 : runAcc qOps mC2Q [[1]] [0] 2 = .error .recordShape := by
    rw [runAcc_succ, hrun1]
    exact hstep1
  rw [MLPSpeculatorModel.forward, if_pos (show mC2Q.top_k_tokens_per_head.length =
    mC2Q.n_predict from rfl), show mC2Q.n_predict = 2 from rfl, hrun2]
  rfl

/-- C2 (amended): for every valid forward call whose top-k values are
1 at every head except possibly the last — in particular the default
all-ones configuration the constructor installs — the returned
AllProbabilities tensor has shape (batch, N, vocab); its per-head
slice is the recorded `probs.exp()` slice with
`probs = log_softmax(head[i](state), vocab axis)` applied to the
step's head input, one full distribution per original batch row (never
reflecting any expanded candidate count); and with real `exp` / `log`
every `[b, i, :]` row sums to exactly 1.  (A top-k value above 1 at a
non-final head instead aborts with a broadcast error — see the
counterexample.) -/
theorem C2_allprobs_shape_and_sums (ops : ScalarOps ℝ)
    (hexp : ops.exp = Real.exp) (hlog : ops.log = Real.log)
    (m : MLPSpeculatorModel ℝ) (h2 : List (List ℝ)) (ids : List ℕ)
    (hb : 0 < h2.length) (hids : ids.length = h2.length) (hv : 0 < m.vsize)
    (hlen : m.top_k_tokens_per_head.length = m.n_predict)
    (hheads : ∀ i, i < m.n_predict → ((m.head.getD i emptyLin).w).length = m.vsize)
    (hones : ∀ i, i + 1 < m.n_predict → m.top_k_tokens_per_head.getD i 0 = 1) :
    ∃ P, m.forward ops h2 ids = .ok P ∧
      P.length = h2.length ∧
      ∀ r, r < h2.length →
        (P.getD r []).length = m.n_predict ∧
        ∀ i, i < m.n_predict →
          ((P.getD r []).getD i []).length = m.vsize ∧
          ((P.getD r []).getD i []).sum = 1 ∧
          ∃ ai, runAcc ops m h2 ids i = .ok ai ∧
            (P.getD r []).getD i [] = (recSlice ops m i ai).getD r [] ∧
            recSlice ops m i ai =
              (map3 ops.exp (logSoftmax3 ops (linear3 (m.head.getD i emptyLin).w
                (headInput ops m i ai.state ai.ind)))).getD 0 [] := by
  obtain ⟨a, ha, _, hreclen, hshapes, hchar⟩ :=
    runAcc_ok ops m h2 ids m.n_predict hb hids hv hheads hones m.n_predict (le_refl _)
  refine ⟨(List.range h2.length).map (fun r => a.recs.map (fun s => s.getD r [])), ?_, ?_, ?_⟩
  · rw [MLPSpeculatorModel.forward, if_pos hlen, ha]
    rfl
  · simp
  · intro r hr
    have hrange : (List.range h2.length).getD r 0 = r := by
      rw [List.getD_eq_getElem?_getD, List.getElem?_range hr]
      rfl
    have hPr : ((List.range h2.length).map
        (fun r => a.recs.map (fun s => s.getD r []))).getD r [] =
        a.recs.map (fun s => s.getD r []) := by
      rw [getD_map_of_lt (show r < (List.range h2.length).length by simpa using hr) [] 0,
        hrange]
    constructor
    · rw [hPr]
      simp [hreclen]
    · intro i hi
      have hilen : i < a.recs.length := by omega
      have hPri : (a.recs.map (fun s => s.getD r [])).getD i [] =
          (a.recs.getD i []).getD r [] := getD_map_of_lt hilen [] []
      obtain ⟨ai, hai, hsliceEq⟩ := hchar i hi
      obtain ⟨ai2, hai2, hwfa, _, _, _⟩ :=
        runAcc_ok ops m h2 ids m.n_predict hb hids hv hheads hones i (le_of_lt hi)
      have hai_eq : ai = ai2 := by
        rw [hai] at hai2
        exact Except.ok.inj hai2
      have hwf : accWF h2.length ai := by
        rw [hai_eq]
        exact hwfa hi
      have hhead := hheads i hi
      have hmem : a.recs.getD i [] ∈ a.recs := getD_mem_of_lt hilen []
      obtain ⟨hslen, hsrows⟩ := hshapes _ hmem
      have hrowmem : (a.recs.getD i []).getD r [] ∈ a.recs.getD i [] :=
        getD_mem_of_lt (by rw [hslen]; exact hr) []
      refine ⟨?_, ?_, ai, hai, ?_, rfl⟩
      · rw [hPr, hPri]
        exact hsrows _ hrowmem
      · rw [hPr, hPri, hsliceEq]
        apply recSlice_row_sum ops hexp hlog m i hwf hv hhead
        rw [← hsliceEq]
        exact hrowmem
      · rw [hPr, hPri, hsliceEq]

/-- Scalar operations over ℝ with the real exponential, logarithm,
square root, reciprocal square root and float power.  The GELU
activation is an opaque elementwise function to every claim here, so
it is instantiated by the identity. -/
noncomputable def rOps : ScalarOps ℝ :=
  ⟨Real.exp, Real.log, Real.sqrt, fun x => (Real.sqrt x)⁻¹, fun x y => x ^ y, id⟩

/-- One-head speculator model over ℝ (hidden width 1, vocabulary 2). -/
noncomputable def mR1 : MLPSpeculatorModel ℝ :=
  { n_predict := 1, hidden_size := 1, tie_weights := false, scale_input := false,
    emb := [⟨("speculator.emb", 0), [[1], [0]]⟩],
    proj := [⟨("speculator.proj", 0), [[1]]⟩],
    head := [⟨("speculator.head", 0), [[1], [2]]⟩],
    ln := [⟨("speculator.ln", 0), [1], [0], 1 / 1000000, true⟩], ln0 := none,
    state_weight := 1, emb_weight := 1, vsize := 2, inner_dim := 2,
    top_k_tokens_per_head := [1] }

theorem C2_allprobs_shape_and_sums_witness :
    ∃ P, mR1.forward rOps [[1]] [0] = .ok P ∧
      P.length = 1 ∧
      ∀ r, r < 1 →
        (P.getD r []).length = mR1.n_predict ∧
        ∀ i, i < mR1.n_predict →
          ((P.getD r []).getD i []).length = mR1.vsize ∧
          ((P.getD r []).getD i []).sum = 1 ∧
          ∃ ai, runAcc rOps mR1 [[1]] [0] i = .ok ai ∧
            (P.getD r []).getD i [] = (recSlice rOps mR1 i ai).getD r [] ∧
            recSlice rOps mR1 i ai =
              (map3 rOps.exp (logSoftmax3 rOps (linear3 (mR1.head.getD i emptyLin).w
                (headInput rOps mR1 i ai.state ai.ind)))).getD 0 [] := by
  have h := C2_allprobs_shape_and_sums rOps rfl rfl mR1 [[1]] [0] (by norm_num) rfl
    (by rw [show mR1.vsize = 2 from rfl]; norm_num) rfl
    (by
      intro i hi
      rw [show mR1.n_predict = 1 from rfl] at hi
      have h0 : i = 0 := by omega
      subst h0
      rfl)
    (by
      intro i hi
      rw [show mR1.n_predict = 1 from rfl] at hi
      omega)
  exact h
